import Mathlib

/-!
Shallow embedding of the IronBee Predicate functional evaluation framework
(src/predicate/functional.cpp): values, per-node evaluation state, the
streaming Each/Map/Filter/Selector combinator family, the Simple combinator,
call argument validation, and the constant-folding transform pass.
-/

namespace IronBee.Predicate.Functional

/-- Value from the spec data model: variant of null, scalar, and named ordered
list.  The concrete Value class lives outside src (value.hpp); this follows the
spec: `variant {Null, Scalar(T), List(ordered sequence of Value, name)}`. -/
inductive Value where
  | null : Value
  | scalar : Int → Value
  | vlist : String → List Value → Value

mutual

/-- Decidable equality on values. -/
def Value.deq : (a b : Value) → Decidable (a = b)
  | .null, .null => isTrue rfl
  | .null, .scalar _ => isFalse fun h => Value.noConfusion h
  | .null, .vlist _ _ => isFalse fun h => Value.noConfusion h
  | .scalar _, .null => isFalse fun h => Value.noConfusion h
  | .scalar a, .scalar b =>
      match decEq a b with
      | isTrue h => isTrue (by rw [h])
      | isFalse h => isFalse fun hh => h (Value.scalar.inj hh)
  | .scalar _, .vlist _ _ => isFalse fun h => Value.noConfusion h
  | .vlist _ _, .null => isFalse fun h => Value.noConfusion h
  | .vlist _ _, .scalar _ => isFalse fun h => Value.noConfusion h
  | .vlist n a, .vlist m b =>
      match decEq n m, Value.deqList a b with
      | isTrue hn, isTrue hl => isTrue (by rw [hn, hl])
      | isFalse hn, _ => isFalse fun hh => hn (Value.vlist.inj hh).1
      | _, isFalse hl => isFalse fun hh => hl (Value.vlist.inj hh).2

/-- Decidable equality on lists of values. -/
def Value.deqList : (a b : List Value) → Decidable (a = b)
  | [], [] => isTrue rfl
  | [], _ :: _ => isFalse fun h => List.noConfusion h
  | _ :: _, [] => isFalse fun h => List.noConfusion h
  | x :: xs, y :: ys =>
      match Value.deq x y, Value.deqList xs ys with
      | isTrue h1, isTrue h2 => isTrue (by rw [h1, h2])
      | isFalse h1, _ => isFalse fun hh => h1 (List.cons.inj hh).1
      | _, isFalse h2 => isFalse fun hh => h2 (List.cons.inj hh).2

end

instance : DecidableEq Value := Value.deq

/-- Tests whether a value is a list. -/
def Value.isList : Value → Bool
  | .vlist _ _ => true
  | _ => false

/-- Tests whether a value is null (Value.is_null in the source). -/
def Value.is_null : Value → Bool
  | .null => true
  | _ => false

/-- Name of a list value (Value.name / name_length in the source). -/
def Value.listName : Value → String
  | .vlist nm _ => nm
  | _ => ""

/-- NodeEvalState: per-transaction evaluation record of one node.  Modelled
from the spec (dag.cpp is not under src): `value: Value, finished: bool`. -/
structure NodeEvalState where
  value : Value
  finished : Bool
deriving DecidableEq

/-- Initial node evaluation state: null value, not finished. -/
def NodeEvalState.init : NodeEvalState := ⟨Value.null, false⟩

/-- Modelled from the spec: NodeEvalState::finish() marks the node finished,
keeping its current value. -/
def NodeEvalState.finish (s : NodeEvalState) : NodeEvalState :=
  { s with finished := true }

/-- Modelled from the spec: NodeEvalState::finish(v) finishes the node with
value v. -/
def NodeEvalState.finishWith (s : NodeEvalState) (v : Value) : NodeEvalState :=
  { s with value := v, finished := true }

/-- Modelled from the spec: NodeEvalState::setup_local_list establishes the
node's local accumulating output list (named after the primary); once a local
list is set up, repeated calls leave it in place (the list persists across
eval_calculate invocations, cf. spec scenario 2). -/
def NodeEvalState.setup_local_list (s : NodeEvalState) (nm : String) :
    NodeEvalState :=
  match s.value with
  | .vlist _ _ => s
  | _ => { s with value := Value.vlist nm [] }

/-- Modelled from the spec: NodeEvalState::append_to_list appends a value to
the node's local output list. -/
def NodeEvalState.append_to_list (s : NodeEvalState) (v : Value) :
    NodeEvalState :=
  match s.value with
  | .vlist nm l => { s with value := Value.vlist nm (l ++ [v]) }
  | _ => s

/-- Hook interface of the Each combinator family (virtual methods ready and
eval_each of Each in the source, overridden by Map, Filter and Selector).
The opaque per-node substate boost::any is the type parameter σ; both the
node's NodeEvalState and the substate are mutable in the source, so each hook
returns the updated pair. -/
structure EachHooks (σ : Type) where
  ready : NodeEvalState → List Value → σ → Value → NodeEvalState × σ
  eval_each : NodeEvalState → List Value → σ → Value → Value →
      NodeEvalState × σ

/-- Per-node substate each_state_t of the Each combinator (source lines
463-469): an initialized flag, the iteration cursor last_subvalue (modelled as
the index of the last consumed element of the primary list), and the
function-specific subsubstate. -/
structure EachState (σ : Type) where
  initialized : Bool
  last_subvalue : Nat
  subsubstate : σ

/-- Fresh each_state_t as built by Each::eval_initialize: not initialized,
default cursor, subsubstate produced by the eval_initialize_each hook. -/
def EachState.mk0 (s : σ) : EachState σ := ⟨false, 0, s⟩

/-- Streaming loop of Each::eval_primary (source lines 569-583): evaluate
eval_each on each remaining subvalue; stop (without advancing the cursor) as
soon as the node finishes; otherwise record the element's index in
last_subvalue and continue.  The argument i is the absolute index in the
primary list of the first element of rest. -/
def eachLoop (h : EachHooks σ) (sec : List Value) (pv : Value) :
    List Value → Nat → NodeEvalState → EachState σ →
      NodeEvalState × EachState σ
  | [], _, st, es => (st, es)
  | sv :: rest, i, st, es =>
      let p := h.eval_each st sec es.subsubstate pv sv
      if p.1.finished then (p.1, { es with subsubstate := p.2 })
      else eachLoop h sec pv rest (i + 1) p.1
        { es with subsubstate := p.2, last_subvalue := i }

/-- Each::eval_primary (source lines 496-591).  The primary argument is the
primary child's NodeEvalState (value possibly still growing, finished flag).
A null primary waits for the primary to finish, then propagates null; a
non-list primary is streamed as a single subvalue and the node finishes in the
same invocation; a list primary is streamed element by element from the
position after the cursor. -/
def Each.evalPrimary (h : EachHooks σ) (st : NodeEvalState) (sec : List Value)
    (es : EachState σ) (primary : NodeEvalState) :
    NodeEvalState × EachState σ :=
  match primary.value with
  | .null =>
      if primary.finished then (st.finishWith Value.null, es) else (st, es)
  | .scalar n =>
      let pv := Value.scalar n
      let p1 := h.ready st sec es.subsubstate pv
      let p2 := h.eval_each p1.1 sec p1.2 pv pv
      (if p2.1.finished then p2.1 else p2.1.finish,
       { es with subsubstate := p2.2 })
  | .vlist nm elems =>
      let pv := Value.vlist nm elems
      let p1 := h.ready st sec es.subsubstate pv
      let es1 : EachState σ := { es with subsubstate := p1.2 }
      if elems.isEmpty then
        (if primary.finished && ! p1.1.finished then p1.1.finish else p1.1,
         es1)
      else if p1.1.finished then
        (p1.1, es1)
      else
        let start := if es1.initialized then es1.last_subvalue + 1 else 0
        let es2 : EachState σ := { es1 with initialized := true }
        let r := eachLoop h sec pv (elems.drop start) start p1.1 es2
        (if primary.finished && ! r.1.finished then r.1.finish else r.1, r.2)

/-- Repeated eval_primary invocations over a sequence of snapshots of the
primary argument's NodeEvalState. -/
def runEach (h : EachHooks σ) (sec : List Value) :
    List NodeEvalState → NodeEvalState → EachState σ →
      NodeEvalState × EachState σ
  | [], st, es => (st, es)
  | p :: ps, st, es =>
      let r := Each.evalPrimary h st sec es p
      runEach h sec ps r.1 r.2

/-- Observable events of one Each-family node: an invocation of the ready
hook, or an invocation of the eval_each hook on a subvalue. -/
inductive EachEvent where
  | readyEv : Value → EachEvent
  | eachEv : Value → Value → EachEvent
deriving DecidableEq

/-- Instrumentation wrapper: runs the given hooks while logging each hook
invocation into an event list carried alongside the substate. -/
def traceHooks (h : EachHooks σ) : EachHooks (σ × List EachEvent) where
  ready st sec s pv :=
    let p := h.ready st sec s.1 pv
    (p.1, (p.2, s.2 ++ [EachEvent.readyEv pv]))
  eval_each st sec s pv sv :=
    let p := h.eval_each st sec s.1 pv sv
    (p.1, (p.2, s.2 ++ [EachEvent.eachEv pv sv]))

/-- Subvalues passed to eval_each, extracted from an event log. -/
def eachDelivered (evs : List EachEvent) : List Value :=
  evs.filterMap fun e =>
    match e with
    | .eachEv _ sv => some sv
    | _ => none

/-- Map's hooks (source lines 614-688), parameterized by the eval_map virtual
method: ready sets up the local output list named after a list primary;
eval_each appends the mapped subvalue to it (or finishes directly with the
single mapped value for a non-list primary). -/
def Map.hooks (eval_map : σ → List Value → Value → Value × σ) :
    EachHooks σ where
  ready st _ s pv :=
    (if pv.isList then st.setup_local_list pv.listName else st, s)
  eval_each st sec s pv sv :=
    let p := eval_map s sec sv
    if pv.isList then (st.append_to_list p.1, p.2)
    else (st.finishWith p.1, p.2)

/-- Filter's hooks (source lines 690-776), parameterized by the eval_filter
virtual method returning (pass, early_finish) and the updated state: passing
subvalues are appended to the local output list; early_finish finishes the
node; for a non-list primary the node finishes immediately, with the subvalue
exactly when it passes. -/
def Filter.hooks (eval_filter : σ → List Value → Value → (Bool × Bool) × σ) :
    EachHooks σ where
  ready st _ s pv :=
    (if pv.isList then st.setup_local_list pv.listName else st, s)
  eval_each st sec s pv sv :=
    let p := eval_filter s sec sv
    if pv.isList then
      let st1 := if p.1.1 then st.append_to_list sv else st
      (if p.1.2 then st1.finish else st1, p.2)
    else
      (if p.1.1 then st.finishWith sv else st.finish, p.2)

/-- Selector's hooks (source lines 779-824), parameterized by the
eval_selector virtual method: the node finishes with the first passing
subvalue; ready is Each's default no-op. -/
def Selector.hooks (eval_selector : σ → List Value → Value → Bool × σ) :
    EachHooks σ where
  ready st _ s _ := (st, s)
  eval_each st sec s _ sv :=
    let p := eval_selector s sec sv
    (if p.1 then st.finishWith sv else st, p.2)

/-- Simple::eval (source lines 383-407), parameterized by the eval_simple
virtual method.  The node's children are given through their NodeEvalStates
in child order.  If every dynamic child (position ≥ numStatic) is finished,
the node finishes with eval_simple applied to the args vector the source
builds; otherwise the call returns with the node's state unchanged.  Note the
source constructs the args vector as `value_vec_t args(num_dynamic_args())`
and then push_backs every dynamic value, so the vector passed to eval_simple
holds numDynamic default (null) values followed by the dynamic values. -/
def Simple.eval (numStatic numDynamic : Nat)
    (eval_simple : List Value → Value)
    (childStates : List NodeEvalState) (st : NodeEvalState) : NodeEvalState :=
  let dyn := childStates.drop numStatic
  if dyn.all (fun c => c.finished) then
    st.finishWith
      (eval_simple (List.replicate numDynamic Value.null ++
        dyn.map (fun c => c.value)))
  else
    st

/-- View of one not-yet-finished call argument as kept in
call_state_t.unfinished (source lines 217-224): the child node's evaluation
index, its textual form (node->to_s()), and its argument position. -/
structure ArgRef where
  idx : Nat
  text : String
  pos : Nat

/-- Modelled from the spec: Reporter collects validation diagnostic records
and write_report writes them out; the written report text is the collected
messages joined by newlines. -/
def reportText (errs : List String) : String :=
  String.intercalate "\n" errs

/-- Diagnostic payload of the einval exception thrown by validate_args
(source lines 244-257): boost::format "Argument validation failed: n=%d
report=%s arg=%s" applied to the argument position, the written report, and
the argument node's textual form. -/
def errMsg (pos : Nat) (report : String) (argText : String) : String :=
  "Argument validation failed: n=" ++ toString pos ++ " report=" ++ report
    ++ " arg=" ++ argText

/-- validate_args (source lines 226-269), parameterized by the per-call
validate_argument virtual method (returning the list of errors it reports for
a given position and value) and the graph evaluation state (node index →
NodeEvalState).  Walks the unfinished-argument list; a finished argument is
validated: on error an einval exception carrying errMsg is thrown, otherwise
the argument is removed from the list.  Unfinished arguments stay. -/
def validate_args (validate : Nat → Value → List String)
    (ges : Nat → NodeEvalState) :
    List ArgRef → Except String (List ArgRef)
  | [] => Except.ok []
  | a :: rest =>
      if (ges a.idx).finished then
        let errs := validate a.pos (ges a.idx).value
        if errs.isEmpty then
          validate_args validate ges rest
        else
          Except.error (errMsg a.pos (reportText errs) a.text)
      else
        (validate_args validate ges rest).map (fun r => a :: r)

/-- Impl::Call::eval_calculate (source lines 305-321): first validate_args on
the unfinished-argument list, then Base::eval (abstracted as baseEval) on the
node's state.  A validation failure propagates and Base::eval is not
reached. -/
def Call.evalCalculate (validate : Nat → Value → List String)
    (ges : Nat → NodeEvalState) (unfinished : List ArgRef)
    (baseEval : NodeEvalState → NodeEvalState) (st : NodeEvalState) :
    Except String (NodeEvalState × List ArgRef) :=
  (validate_args validate ges unfinished).map fun rest => (baseEval st, rest)

/-- Child node of a call as the validation and transform passes see it:
either a literal child carrying its compile-time value, or a non-literal
child (identified by an id so that distinct non-literal children can be told
apart). -/
inductive CNode where
  | lit : Value → CNode
  | nonlit : Nat → CNode
deriving DecidableEq

/-- Node::is_literal for a child. -/
def CNode.is_literal : CNode → Bool
  | .lit _ => true
  | .nonlit _ => false

/-- literal_value of a literal child (null for non-literal children, which
the source never queries). -/
def CNode.litValue : CNode → Value
  | .lit v => v
  | .nonlit _ => Value.null

/-- Reporter events observable during Impl::Call::pre_transform: the arity
error reported by Validate::n_children, or an invocation of
Base::validate_argument on a literal child (with its position and value). -/
inductive PreEvent where
  | arityError : Nat → Nat → PreEvent
  | validated : Nat → Value → PreEvent
deriving DecidableEq

/-- Literal-child validation loop of Impl::Call::pre_transform (source lines
61-71): walks the children with a running position counter, invoking
validate_argument on each child that is already literal. -/
def validateLiterals : Nat → List CNode → List PreEvent
  | _, [] => []
  | i, c :: rest =>
      (if c.is_literal then [PreEvent.validated i c.litValue] else []) ++
        validateLiterals (i + 1) rest

/-- Impl::Call::pre_transform (source lines 49-72): Validate::n_children
checks that the child count equals num_static_args + num_dynamic_args
(modelled from the spec: it reports an error and returns false on mismatch);
on mismatch the function returns without any further local check, otherwise
every literal child is validated.  The result is the list of observable
events in order. -/
def Call.preTransform (nStatic nDynamic : Nat) (children : List CNode) :
    List PreEvent :=
  if children.length = nStatic + nDynamic then
    validateLiterals 0 children
  else
    [PreEvent.arityError children.length (nStatic + nDynamic)]

/-- Functional implementation of a call as the transform pass needs it:
Base::eval abstracted as a function from the children's values to a
NodeEvalState update, and the result of the Base::transform fallback hook
(false by default in the source). -/
structure BaseModel where
  eval : List Value → NodeEvalState → NodeEvalState
  transformResult : Bool

/-- Initialization loop of Impl::Call::transform (source lines 163-171): walk
the children, initializing each node not yet in the initialized set; returns
the nodes initialized, in order.  Node identity is structural (the source
dedups shared node pointers through a std::set). -/
def initLoop : List CNode → List CNode → List CNode
  | [], _ => []
  | c :: rest, seen =>
      if c ∈ seen then initLoop rest seen
      else c :: initLoop rest (c :: seen)

/-- Observable outcome of Impl::Call::transform (source lines 136-203):
whether the all-literal fold path was taken, the index assigned to the node
itself, the indices assigned to the children in child order, the size of the
isolated GraphEvalState, the distinct literal children initialized (in
order), how many times the node itself was evaluated in the isolated context,
the replacement literal's value when the fold succeeded, whether the scratch
memory pool's ownership was transferred to the replacement, and the boolean
the function returns. -/
structure FoldTrace where
  allLiteral : Bool
  meIndex : Option Nat
  childIndices : List Nat
  gesSize : Nat
  initEvents : List CNode
  evalCount : Nat
  replacement : Option Value
  poolTransferred : Bool
  returned : Bool

/-- Impl::Call::transform (source lines 136-203).  If any child is
non-literal, delegate to Base::transform.  Otherwise: index the node 0 and
its K children 1..K, allocate an isolated GraphEvalState of size K+1,
initialize each distinct literal child once (modelled from the spec: a
literal's evaluation state is its value, finished), prepare and evaluate the
node once in that context, and if the node finished, replace it in the merge
graph by a literal holding the computed value, transferring the scratch pool
to it and returning true; if it did not finish, discard the pool and fall
back to Base::transform. -/
def Call.transform (base : BaseModel) (children : List CNode) : FoldTrace :=
  if children.all CNode.is_literal then
    let K := children.length
    let myState := base.eval (children.map CNode.litValue) NodeEvalState.init
    if myState.finished then
      { allLiteral := true
        meIndex := some 0
        childIndices := List.range' 1 K
        gesSize := K + 1
        initEvents := initLoop children []
        evalCount := 1
        replacement := some myState.value
        poolTransferred := true
        returned := true }
    else
      { allLiteral := true
        meIndex := some 0
        childIndices := List.range' 1 K
        gesSize := K + 1
        initEvents := initLoop children []
        evalCount := 1
        replacement := none
        poolTransferred := false
        returned := base.transformResult }
  else
    { allLiteral := false
      meIndex := none
      childIndices := []
      gesSize := 0
      initEvents := []
      evalCount := 0
      replacement := none
      poolTransferred := false
      returned := base.transformResult }

/-- Modelled from the spec: the evaluation driver (GraphEvalState::eval /
eval_calculate re-invocation, eval.cpp is not under src) calls a node's
eval_calculate only while the node is not finished: a node already finished
is never re-invoked for calculation. -/
def driverStep (cf : NodeEvalState → NodeEvalState) (st : NodeEvalState) :
    NodeEvalState :=
  if st.finished then st else cf st

/-- Iterated evaluation driver: n driver-guarded eval_calculate rounds. -/
def driverRun (cf : NodeEvalState → NodeEvalState) :
    Nat → NodeEvalState → NodeEvalState
  | 0, st => st
  | n + 1, st => driverRun cf n (driverStep cf st)

/-- Modelled from the spec: driver-guarded repeated Each::eval_primary
invocations over a sequence of primary-argument snapshots — the driver skips
the node once it is finished. -/
def driverRunEach (h : EachHooks σ) (sec : List Value) :
    List NodeEvalState → NodeEvalState × EachState σ →
      NodeEvalState × EachState σ
  | [], r => r
  | p :: ps, r =>
      if r.1.finished then driverRunEach h sec ps r
      else driverRunEach h sec ps (Each.evalPrimary h r.1 sec r.2 p)

/-- Hooks used by the claim C8 counterexample: the substate counts how many
times the ready hook has been invoked; eval_each is a no-op. -/
def countReadyHooks : EachHooks Nat where
  ready st _ s _ := (st, s + 1)
  eval_each st _ s _ _ := (st, s)

/-- Hooks that touch neither the node state nor the substate. -/
def idHooks : EachHooks Unit where
  ready st _ s _ := (st, s)
  eval_each st _ s _ _ := (st, s)

/-- Selector hooks for a stateless predicate p (eval_selector ignores and
passes through its substate). -/
def selHooks (p : Value → Bool) : EachHooks Unit :=
  Selector.hooks fun s _ w => (p w, s)

/-- Filter hooks for a stateless eval_filter g returning
(pass, early_finish). -/
def filtHooks (g : Value → Bool × Bool) : EachHooks Unit :=
  Filter.hooks fun s _ w => (g w, s)

/-- Map hooks for a stateless eval_map function. -/
def mapHooks (m : Value → Value) : EachHooks Unit :=
  Map.hooks fun s _ w => (m w, s)

/-- Predecessor relation between successive snapshots of a primary list
argument: the list only grows at the tail (open-list append semantics) and a
snapshot in which the primary is finished is frozen. -/
def prefFreeze (a b : List Value × Bool) : Prop :=
  a.1 <+: b.1 ∧ (a.2 = true → b = a)

/-- Last snapshot of a primary-list history, starting from q (q itself when
the history is empty). -/
def lastSnap (q : List Value × Bool) (snaps : List (List Value × Bool)) :
    List Value × Bool :=
  snaps.foldl (fun _ b => b) q

/-- Delivery invariant maintained by repeated eval_primary invocations over a
growing list primary, for arbitrary hooks: the subvalues delivered so far
form a positional prefix of the current primary list; the prefix is empty
until the cursor is initialized and nonempty afterwards; and while the node
is unfinished, the whole current list has been delivered with the cursor on
its last element. -/
def DeliveredPrefix {σ : Type} (st : NodeEvalState)
    (es : EachState (σ × List EachEvent)) (L : List Value) : Prop :=
  ∃ k, eachDelivered es.subsubstate.2 = L.take k ∧ k ≤ L.length ∧
    (es.initialized = false → k = 0) ∧
    (es.initialized = true → 1 ≤ k) ∧
    (es.initialized = true → st.finished = false →
      k = L.length ∧ es.last_subvalue + 1 = k)

/-- Exact-delivery invariant for hooks that never change the finished flag:
the delivered subvalues are exactly the current primary list, the node can
be finished only after a snapshot in which the primary was finished, and the
cursor tracks the end of the list while running. -/
def DeliveredExact {σ : Type} (st : NodeEvalState)
    (es : EachState (σ × List EachEvent)) (L : List Value) (f : Bool) :
    Prop :=
  eachDelivered es.subsubstate.2 = L ∧
  (st.finished = true → f = true) ∧
  (st.finished = false →
    (es.initialized = true → es.last_subvalue + 1 = L.length ∧
      1 ≤ L.length) ∧
    (es.initialized = false → L = []))

/-- Primary-argument NodeEvalState corresponding to a list snapshot. -/
def snapState (nm : String) (q : List Value × Bool) : NodeEvalState :=
  ⟨Value.vlist nm q.1, q.2⟩

section TraceLemmas

variable {σ : Type}

@[simp]
theorem traceHooks_ready_fst (h : EachHooks σ) (st : NodeEvalState)
    (sec : List Value) (s : σ × List EachEvent) (pv : Value) :
    ((traceHooks h).ready st sec s pv).1 = (h.ready st sec s.1 pv).1 := rfl

@[simp]
theorem traceHooks_ready_snd (h : EachHooks σ) (st : NodeEvalState)
    (sec : List Value) (s : σ × List EachEvent) (pv : Value) :
    ((traceHooks h).ready st sec s pv).2 =
      ((h.ready st sec s.1 pv).2, s.2 ++ [EachEvent.readyEv pv]) := rfl

@[simp]
theorem traceHooks_each_fst (h : EachHooks σ) (st : NodeEvalState)
    (sec : List Value) (s : σ × List EachEvent) (pv sv : Value) :
    ((traceHooks h).eval_each st sec s pv sv).1 =
      (h.eval_each st sec s.1 pv sv).1 := rfl

@[simp]
theorem traceHooks_each_snd (h : EachHooks σ) (st : NodeEvalState)
    (sec : List Value) (s : σ × List EachEvent) (pv sv : Value) :
    ((traceHooks h).eval_each st sec s pv sv).2 =
      ((h.eval_each st sec s.1 pv sv).2, s.2 ++ [EachEvent.eachEv pv sv]) :=
  rfl

@[simp]
theorem eachDelivered_nil : eachDelivered [] = [] := rfl

@[simp]
theorem eachDelivered_append (a b : List EachEvent) :
    eachDelivered (a ++ b) = eachDelivered a ++ eachDelivered b := by
  simp [eachDelivered]

@[simp]
theorem eachDelivered_ready (pv : Value) :
    eachDelivered [EachEvent.readyEv pv] = [] := rfl

@[simp]
theorem eachDelivered_each (pv sv : Value) :
    eachDelivered [EachEvent.eachEv pv sv] = [sv] := rfl

@[simp]
theorem eachDelivered_cons_ready (pv : Value) (evs : List EachEvent) :
    eachDelivered (EachEvent.readyEv pv :: evs) = eachDelivered evs := rfl

@[simp]
theorem eachDelivered_cons_each (pv sv : Value) (evs : List EachEvent) :
    eachDelivered (EachEvent.eachEv pv sv :: evs) =
      sv :: eachDelivered evs := rfl

/-- Every event appended by the streaming loop is an eval_each event on the
primary value being streamed. -/
theorem eachLoop_trace_events (h : EachHooks σ) (sec : List Value)
    (pv : Value) (rest : List Value) (i : Nat) (st : NodeEvalState)
    (es : EachState (σ × List EachEvent)) :
    ∃ evs,
      (eachLoop (traceHooks h) sec pv rest i st es).2.subsubstate.2 =
        es.subsubstate.2 ++ evs ∧
      ∀ e ∈ evs, ∃ sv, e = EachEvent.eachEv pv sv := by
  induction rest generalizing i st es with
  | nil => exact ⟨[], by simp [eachLoop], by simp⟩
  | cons sv rest ih =>
    simp only [eachLoop, traceHooks_each_fst, traceHooks_each_snd]
    by_cases hf : (h.eval_each st sec es.subsubstate.1 pv sv).1.finished
    · refine ⟨[EachEvent.eachEv pv sv], ?_, ?_⟩
      · simp [hf]
      · simp
    · obtain ⟨evs, hevs, hall⟩ := ih (i + 1)
        (h.eval_each st sec es.subsubstate.1 pv sv).1
        { es with
            subsubstate := ((h.eval_each st sec es.subsubstate.1 pv sv).2,
              es.subsubstate.2 ++ [EachEvent.eachEv pv sv])
            last_subvalue := i }
      refine ⟨EachEvent.eachEv pv sv :: evs, ?_, ?_⟩
      · simp only [hf, Bool.false_eq_true, if_false]
        rw [hevs]
        simp
      · intro e he
        rcases List.mem_cons.1 he with rfl | he
        · exact ⟨sv, rfl⟩
        · exact hall e he

end TraceLemmas

section LoopLemmas

variable {σ : Type}

/-- The streaming loop never touches the initialized flag. -/
theorem eachLoop_initialized (h : EachHooks σ) (sec : List Value) (pv : Value)
    (rest : List Value) (i : Nat) (st : NodeEvalState) (es : EachState σ) :
    (eachLoop h sec pv rest i st es).2.initialized = es.initialized := by
  induction rest generalizing i st es with
  | nil => rfl
  | cons sv rest ih =>
    simp only [eachLoop]
    by_cases hf : (h.eval_each st sec es.subsubstate pv sv).1.finished
    · simp [hf]
    · simp only [hf, Bool.false_eq_true, if_false]
      exact ih (i + 1) _ _

/-- The streaming loop either leaves the cursor untouched or moves it to at
least the index of the first element it was given: the cursor never goes
backwards. -/
theorem eachLoop_cursor_mono (h : EachHooks σ) (sec : List Value)
    (pv : Value) (rest : List Value) (i : Nat) (st : NodeEvalState)
    (es : EachState σ) :
    (eachLoop h sec pv rest i st es).2.last_subvalue = es.last_subvalue ∨
      i ≤ (eachLoop h sec pv rest i st es).2.last_subvalue := by
  induction rest generalizing i st es with
  | nil => exact Or.inl rfl
  | cons sv rest ih =>
    simp only [eachLoop]
    by_cases hf : (h.eval_each st sec es.subsubstate pv sv).1.finished
    · exact Or.inl (by simp [hf])
    · simp only [hf, Bool.false_eq_true, if_false]
      rcases ih (i + 1) (h.eval_each st sec es.subsubstate pv sv).1
          { es with
              subsubstate := (h.eval_each st sec es.subsubstate pv sv).2
              last_subvalue := i } with
        heq | hle
      · exact Or.inr (le_of_eq heq.symm)
      · exact Or.inr (le_trans (Nat.le_succ i) hle)

/-- When the streaming loop runs to completion without the node finishing,
the cursor ends on the index of the last element (and is untouched when there
was nothing to stream). -/
theorem eachLoop_cursor_final (h : EachHooks σ) (sec : List Value)
    (pv : Value) (rest : List Value) (i : Nat) (st : NodeEvalState)
    (es : EachState σ)
    (hnf : (eachLoop h sec pv rest i st es).1.finished = false) :
    (rest = [] →
      (eachLoop h sec pv rest i st es).2.last_subvalue = es.last_subvalue) ∧
    (rest ≠ [] →
      (eachLoop h sec pv rest i st es).2.last_subvalue + 1 =
        i + rest.length) := by
  revert hnf
  induction rest generalizing i st es with
  | nil => exact fun _ => ⟨fun _ => rfl, fun hc => absurd rfl hc⟩
  | cons sv rest ih =>
    intro hnf
    refine ⟨fun hc => List.noConfusion hc, fun _ => ?_⟩
    simp only [eachLoop] at hnf ⊢
    by_cases hf : (h.eval_each st sec es.subsubstate pv sv).1.finished
    · simp [hf] at hnf
    · simp only [hf, Bool.false_eq_true, if_false] at hnf ⊢
      by_cases hne : rest = []
      · subst hne
        simp [eachLoop]
      · have := (ih (i + 1) (h.eval_each st sec es.subsubstate pv sv).1
            { es with
                subsubstate := (h.eval_each st sec es.subsubstate pv sv).2
                last_subvalue := i } hnf).2 hne
        rw [this]
        simp [Nat.add_comm, Nat.add_assoc, Nat.add_left_comm]

/-- When the eval_each hook never changes the node's finished flag, neither
does the streaming loop. -/
theorem eachLoop_finished_flag (h : EachHooks σ) (sec : List Value)
    (pv : Value) (rest : List Value) (i : Nat) (st : NodeEvalState)
    (es : EachState σ)
    (hpf : ∀ (st' : NodeEvalState) (s' : σ) (sv : Value),
      (h.eval_each st' sec s' pv sv).1.finished = st'.finished) :
    (eachLoop h sec pv rest i st es).1.finished = st.finished := by
  induction rest generalizing i st es with
  | nil => rfl
  | cons sv rest ih =>
    simp only [eachLoop]
    by_cases hf : (h.eval_each st sec es.subsubstate pv sv).1.finished
    · simpa [hf] using hpf st es.subsubstate sv
    · simp only [hf, Bool.false_eq_true, if_false]
      rw [ih (i + 1) _ _, hpf]

/-- Positional-prefix delivery of one loop pass: the subvalues passed to
eval_each are exactly some positional prefix of the remaining elements
(nonempty when there are elements), and all of them when the node does not
finish during the pass. -/
theorem eachLoop_delivered (h : EachHooks σ) (sec : List Value) (pv : Value)
    (rest : List Value) (i : Nat) (st : NodeEvalState)
    (es : EachState (σ × List EachEvent)) :
    ∃ k, k ≤ rest.length ∧ (rest ≠ [] → 1 ≤ k) ∧
      (eachLoop (traceHooks h) sec pv rest i st es).2.subsubstate.2 =
        es.subsubstate.2 ++
          (rest.take k).map (fun sv => EachEvent.eachEv pv sv) ∧
      ((eachLoop (traceHooks h) sec pv rest i st es).1.finished = false →
        k = rest.length) := by
  induction rest generalizing i st es with
  | nil => exact ⟨0, by simp [eachLoop]⟩
  | cons sv rest ih =>
    simp only [eachLoop, traceHooks_each_fst, traceHooks_each_snd]
    by_cases hf : (h.eval_each st sec es.subsubstate.1 pv sv).1.finished
    · refine ⟨1, Nat.succ_le_succ (Nat.zero_le _), fun _ => le_refl 1, ?_, ?_⟩
      · simp [hf]
      · intro hc
        simp [hf] at hc
    · obtain ⟨k, hk, _, htr, hfin⟩ := ih (i + 1)
        (h.eval_each st sec es.subsubstate.1 pv sv).1
        { es with
            subsubstate := ((h.eval_each st sec es.subsubstate.1 pv sv).2,
              es.subsubstate.2 ++ [EachEvent.eachEv pv sv])
            last_subvalue := i }
      refine ⟨k + 1, Nat.succ_le_succ hk, fun _ => Nat.succ_le_succ (Nat.zero_le k), ?_, ?_⟩
      · simp only [hf, Bool.false_eq_true, if_false]
        rw [htr]
        simp
      · simp only [hf, Bool.false_eq_true, if_false]
        intro hc
        rw [hfin hc]
        simp

end LoopLemmas

section PrimaryLemmas

variable {σ : Type}

/-- Once the node is finished, an eval_primary invocation on a list primary
delivers no subvalue to eval_each (only the unconditional ready call happens)
and leaves the node finished, provided the ready hook keeps a finished node
finished. -/
theorem evalPrimary_finished_list (h : EachHooks σ) (st : NodeEvalState)
    (sec : List Value) (es : EachState (σ × List EachEvent))
    (primary : NodeEvalState) (nm : String) (L : List Value)
    (hpv : primary.value = Value.vlist nm L)
    (hfp : (h.ready st sec es.subsubstate.1 (Value.vlist nm L)).1.finished =
      true) :
    eachDelivered
        ((Each.evalPrimary (traceHooks h) st sec es primary).2.subsubstate.2) =
      eachDelivered es.subsubstate.2 ∧
    (Each.evalPrimary (traceHooks h) st sec es primary).1.finished = true := by
  obtain ⟨v, f⟩ := primary
  simp only at hpv
  subst hpv
  simp only [Each.evalPrimary, traceHooks_ready_fst, traceHooks_ready_snd]
  by_cases he : L.isEmpty
  · simp [he, hfp]
  · simp [he, hfp]

end PrimaryLemmas

/-- Claim C2: once a node's NodeEvalState has finished, subsequent
eval_calculate / eval_primary rounds driven by the evaluation driver (which
never re-invokes calculation on a finished node) leave both its value and its
finished flag unchanged — the whole state is literally unchanged, for any
number of rounds, any calculation function, and any sequence of
primary-argument snapshots. -/
theorem finished_node_state_immutable :
    (∀ (cf : NodeEvalState → NodeEvalState) (n : Nat) (st : NodeEvalState),
      st.finished = true → driverRun cf n st = st) ∧
    (∀ (σ : Type) (h : EachHooks σ) (sec : List Value)
        (snaps : List NodeEvalState) (st : NodeEvalState) (es : EachState σ),
      st.finished = true →
        driverRunEach h sec snaps (st, es) = (st, es)) := by
  constructor
  · intro cf n
    induction n with
    | zero => intro st _; rfl
    | succ n ih =>
      intro st hf
      simp only [driverRun, driverStep, hf, if_true]
      exact ih st hf
  · intro σ h sec snaps
    induction snaps with
    | nil => intro st es _; rfl
    | cons p ps ih =>
      intro st es hf
      simp only [driverRunEach, hf, if_true]
      exact ih st es hf

/-- Witness for claim C2 at a concrete finished state. -/
theorem finished_node_state_immutable_w :
    driverRun (fun _ => NodeEvalState.init) 5 ⟨Value.scalar 7, true⟩ =
        ⟨Value.scalar 7, true⟩ ∧
      driverRunEach idHooks [] [NodeEvalState.init]
        (⟨Value.scalar 7, true⟩, EachState.mk0 ()) =
        (⟨Value.scalar 7, true⟩, EachState.mk0 ()) :=
  ⟨finished_node_state_immutable.1 (fun _ => NodeEvalState.init) 5
      ⟨Value.scalar 7, true⟩ rfl,
    finished_node_state_immutable.2 Unit idHooks [] [NodeEvalState.init]
      ⟨Value.scalar 7, true⟩ (EachState.mk0 ()) rfl⟩

/-- Claim C4 (code bug): with num_static_args = 0 and num_dynamic_args = 1
and a finished dynamic child holding 5, Simple::eval invokes eval_simple on
the vector [null, 5] — one default-constructed null per dynamic argument
followed by the dynamic values, because the source constructs
value_vec_t args(num_dynamic_args()) and then push_backs — rather than on
[5] as the claim states. -/
theorem simple_eval_null_padded_args :
    Simple.eval 0 1 (fun args => Value.vlist "args" args)
        [⟨Value.scalar 5, true⟩] NodeEvalState.init =
      ⟨Value.vlist "args" [Value.null, Value.scalar 5], true⟩ ∧
    Value.vlist "args" [Value.null, Value.scalar 5] ≠
      Value.vlist "args" [Value.scalar 5] :=
  ⟨by decide, by decide⟩

/-- Claim C8 (amended): the ready hook is invoked exactly once per
eval_primary invocation whose primary value is non-null — before any
subvalue of that invocation is streamed to eval_each — rather than once per
structurally-new primary value. -/
theorem each_ready_every_call {σ : Type} (h : EachHooks σ)
    (st : NodeEvalState) (sec : List Value)
    (es : EachState (σ × List EachEvent)) (primary : NodeEvalState)
    (hnn : primary.value ≠ Value.null) :
    ∃ evs,
      (Each.evalPrimary (traceHooks h) st sec es primary).2.subsubstate.2 =
        es.subsubstate.2 ++ EachEvent.readyEv primary.value :: evs ∧
      ∀ e ∈ evs, ∃ sv, e = EachEvent.eachEv primary.value sv := by
  obtain ⟨v, f⟩ := primary
  simp only at hnn ⊢
  match v with
  | Value.null => exact absurd rfl hnn
  | Value.scalar n =>
      refine ⟨[EachEvent.eachEv (Value.scalar n) (Value.scalar n)], ?_, ?_⟩
      · simp [Each.evalPrimary]
      · simp
  | Value.vlist nm L =>
      simp only [Each.evalPrimary, traceHooks_ready_fst, traceHooks_ready_snd]
      by_cases he : L.isEmpty
      · exact ⟨[], by simp [he], by simp⟩
      · by_cases hrf :
          (h.ready st sec es.subsubstate.1 (Value.vlist nm L)).1.finished
        · exact ⟨[], by simp [he, hrf], by simp⟩
        · obtain ⟨evs, hevs, hall⟩ :=
            eachLoop_trace_events h sec (Value.vlist nm L)
              (L.drop (if es.initialized then es.last_subvalue + 1 else 0))
              (if es.initialized then es.last_subvalue + 1 else 0)
              (h.ready st sec es.subsubstate.1 (Value.vlist nm L)).1
              { es with
                  subsubstate :=
                    ((h.ready st sec es.subsubstate.1 (Value.vlist nm L)).2,
                      es.subsubstate.2 ++
                        [EachEvent.readyEv (Value.vlist nm L)])
                  initialized := true }
          refine ⟨evs, ?_, hall⟩
          simp only [he, Bool.false_eq_true, if_false, hrf]
          simpa using hevs

/-- Witness for the amended claim C8 at a concrete input. -/
theorem each_ready_every_call_w :
    ∃ evs,
      (Each.evalPrimary (traceHooks idHooks) NodeEvalState.init []
          (EachState.mk0 ((), []))
          ⟨Value.vlist "p" [Value.scalar 1], false⟩).2.subsubstate.2 =
        [] ++ EachEvent.readyEv (Value.vlist "p" [Value.scalar 1]) :: evs ∧
      ∀ e ∈ evs, ∃ sv,
        e = EachEvent.eachEv (Value.vlist "p" [Value.scalar 1]) sv :=
  each_ready_every_call idHooks NodeEvalState.init []
    (EachState.mk0 ((), [])) ⟨Value.vlist "p" [Value.scalar 1], false⟩
    (by decide)

/-- Counterexample to claim C8 as stated: across two eval_primary
invocations with the identical (structurally unchanged) primary list value,
the ready hook is invoked twice, not once. -/
theorem each_ready_every_call_cex :
    (runEach countReadyHooks []
        [⟨Value.vlist "p" [Value.scalar 1], false⟩,
         ⟨Value.vlist "p" [Value.scalar 1], false⟩]
        NodeEvalState.init (EachState.mk0 0)).2.subsubstate = 2 ∧
      (2 : Nat) ≠ 1 :=
  ⟨by decide, by decide⟩

/-- Claim C10: for a primary whose current value is a non-list non-null
(scalar) value, one eval_primary invocation calls ready and then eval_each
once with that scalar as both primary value and subvalue and finishes the
node in the same invocation — regardless of whether the primary argument is
finished — and the finishing step itself adds no value (the node's value is
whatever the hooks left).  A null primary value with an unfinished primary
argument leaves the state completely unchanged. -/
theorem each_scalar_primary_immediate {σ : Type} (h : EachHooks σ)
    (st : NodeEvalState) (sec : List Value)
    (es : EachState (σ × List EachEvent)) (primary : NodeEvalState)
    (n : Int) :
    (primary.value = Value.scalar n →
      (Each.evalPrimary (traceHooks h) st sec es primary).2.subsubstate.2 =
        es.subsubstate.2 ++
          [EachEvent.readyEv (Value.scalar n),
           EachEvent.eachEv (Value.scalar n) (Value.scalar n)] ∧
      (Each.evalPrimary (traceHooks h) st sec es primary).1.finished = true ∧
      (Each.evalPrimary (traceHooks h) st sec es primary).1.value =
        (h.eval_each (h.ready st sec es.subsubstate.1 (Value.scalar n)).1 sec
          (h.ready st sec es.subsubstate.1 (Value.scalar n)).2 (Value.scalar n)
          (Value.scalar n)).1.value ∧
      ((h.eval_each (h.ready st sec es.subsubstate.1 (Value.scalar n)).1 sec
          (h.ready st sec es.subsubstate.1 (Value.scalar n)).2 (Value.scalar n)
          (Value.scalar n)).1.finished = false →
        (Each.evalPrimary (traceHooks h) st sec es primary).1 =
          (h.eval_each (h.ready st sec es.subsubstate.1 (Value.scalar n)).1 sec
            (h.ready st sec es.subsubstate.1 (Value.scalar n)).2
            (Value.scalar n) (Value.scalar n)).1.finish)) ∧
    (primary.value = Value.null → primary.finished = false →
      Each.evalPrimary (traceHooks h) st sec es primary = (st, es)) := by
  obtain ⟨v, f⟩ := primary
  constructor
  · intro hv
    simp only at hv
    subst hv
    simp only [Each.evalPrimary, traceHooks_ready_fst, traceHooks_ready_snd,
      traceHooks_each_fst, traceHooks_each_snd]
    refine ⟨by simp, ?_, ?_, ?_⟩
    · by_cases hf :
        (h.eval_each (h.ready st sec es.subsubstate.1 (Value.scalar n)).1 sec
          (h.ready st sec es.subsubstate.1 (Value.scalar n)).2 (Value.scalar n)
          (Value.scalar n)).1.finished
      · simp [hf]
      · simp [hf, NodeEvalState.finish]
    · by_cases hf :
        (h.eval_each (h.ready st sec es.subsubstate.1 (Value.scalar n)).1 sec
          (h.ready st sec es.subsubstate.1 (Value.scalar n)).2 (Value.scalar n)
          (Value.scalar n)).1.finished
      · simp [hf]
      · simp [hf, NodeEvalState.finish]
    · intro hf
      simp [hf]
  · intro hv hf
    simp only at hv hf
    subst hv
    simp [Each.evalPrimary, hf]

/-- Witness for claim C10 at a concrete scalar primary. -/
theorem each_scalar_primary_immediate_w :
    (Each.evalPrimary (traceHooks idHooks) NodeEvalState.init []
        (EachState.mk0 ((), [])) ⟨Value.scalar 3, false⟩).1.finished = true :=
  ((each_scalar_primary_immediate idHooks NodeEvalState.init []
      (EachState.mk0 ((), [])) ⟨Value.scalar 3, false⟩ 3).1 rfl).2.1

/-- Membership in the literal-validation event list: validated i v occurs iff
the child at offset i - k (counting from the loop's starting position k) is a
literal with value v. -/
theorem mem_validateLiterals (l : List CNode) (k i : Nat) (v : Value) :
    PreEvent.validated i v ∈ validateLiterals k l ↔
      ∃ j c, i = k + j ∧ l.get? j = some c ∧ c.is_literal = true ∧
        v = c.litValue := by
  induction l generalizing k with
  | nil => simp [validateLiterals]
  | cons c rest ih =>
    simp only [validateLiterals, List.mem_append]
    constructor
    · rintro (hmem | hmem)
      · by_cases hc : c.is_literal
        · simp only [hc, if_true, List.mem_singleton] at hmem
          obtain ⟨h1, h2⟩ := PreEvent.validated.inj hmem
          exact ⟨0, c, by omega, rfl, hc, h2⟩
        · simp [hc] at hmem
      · obtain ⟨j, c2, hj, hget, hl, hv⟩ := (ih (k + 1)).1 hmem
        exact ⟨j + 1, c2, by omega, by simpa using hget, hl, hv⟩
    · rintro ⟨j, c2, hj, hget, hl, hv⟩
      cases j with
      | zero =>
        left
        simp only [List.get?_cons_zero, Option.some.injEq] at hget
        subst hget
        subst hj
        simp [hl, hv]
      | succ j2 =>
        right
        refine (ih (k + 1)).2 ⟨j2, c2, by omega, by simpa using hget, hl, hv⟩

/-- Claim C9: pre_transform reports exactly the arity error and performs no
literal-argument validation when the child count differs from
num_static_args + num_dynamic_args; when the count matches, it invokes
validate_argument precisely on the children that are already literal, with
their position and literal value. -/
theorem call_pre_transform_arity_gate (nStatic nDynamic : Nat)
    (children : List CNode) :
    (children.length ≠ nStatic + nDynamic →
      Call.preTransform nStatic nDynamic children =
        [PreEvent.arityError children.length (nStatic + nDynamic)]) ∧
    (children.length = nStatic + nDynamic →
      ∀ i v,
        PreEvent.validated i v ∈ Call.preTransform nStatic nDynamic children ↔
          ∃ c, children.get? i = some c ∧ c.is_literal = true ∧
            v = c.litValue) := by
  constructor
  · intro hne
    simp [Call.preTransform, hne]
  · intro heq i v
    simp only [Call.preTransform, heq, if_true]
    rw [mem_validateLiterals children 0 i v]
    constructor
    · rintro ⟨j, c, hj, hget, hl, hv⟩
      have hji : j = i := by omega
      subst hji
      exact ⟨c, hget, hl, hv⟩
    · rintro ⟨c, hget, hl, hv⟩
      exact ⟨i, c, by omega, hget, hl, hv⟩

/-- Witness for claim C9: a two-child call with one literal child, at the
right arity and at a wrong arity. -/
theorem call_pre_transform_arity_gate_w :
    (PreEvent.validated 0 (Value.scalar 9) ∈
      Call.preTransform 1 1 [CNode.lit (Value.scalar 9), CNode.nonlit 0]) ∧
    Call.preTransform 2 1 [CNode.lit (Value.scalar 9), CNode.nonlit 0] =
      [PreEvent.arityError 2 3] :=
  ⟨((call_pre_transform_arity_gate 1 1
        [CNode.lit (Value.scalar 9), CNode.nonlit 0]).2 (by decide) 0
        (Value.scalar 9)).2 ⟨CNode.lit (Value.scalar 9), rfl, rfl, rfl⟩,
    (call_pre_transform_arity_gate 2 1
        [CNode.lit (Value.scalar 9), CNode.nonlit 0]).1 (by decide)⟩

/-- A failing finished argument in the unfinished list makes validate_args
throw the einval payload built from the first such argument: the result is an
error for some finished, failing argument of the list. -/
theorem validate_args_error (validate : Nat → Value → List String)
    (ges : Nat → NodeEvalState) (l : List ArgRef)
    (hfail : ∃ a ∈ l, (ges a.idx).finished = true ∧
      validate a.pos (ges a.idx).value ≠ []) :
    ∃ a ∈ l, (ges a.idx).finished = true ∧
      validate a.pos (ges a.idx).value ≠ [] ∧
      validate_args validate ges l =
        Except.error (errMsg a.pos
          (reportText (validate a.pos (ges a.idx).value)) a.text) := by
  induction l with
  | nil => simp at hfail
  | cons a rest ih =>
    by_cases hf : (ges a.idx).finished
    · by_cases he : (validate a.pos (ges a.idx).value).isEmpty
      · have hrest : ∃ b ∈ rest, (ges b.idx).finished = true ∧
            validate b.pos (ges b.idx).value ≠ [] := by
          obtain ⟨b, hb, h1, h2⟩ := hfail
          rcases List.mem_cons.1 hb with rfl | hb2
          · exact absurd (List.isEmpty_iff.1 he) h2
          · exact ⟨b, hb2, h1, h2⟩
        obtain ⟨b, hb, h1, h2, h3⟩ := ih hrest
        refine ⟨b, List.mem_cons_of_mem a hb, h1, h2, ?_⟩
        simp only [validate_args, hf, if_true, he]
        exact h3
      · refine ⟨a, List.mem_cons_self a rest, hf, ?_, ?_⟩
        · intro hc
          rw [hc] at he
          exact he rfl
        · simp only [validate_args, hf, if_true, he, Bool.false_eq_true,
            if_false]
    · have hrest : ∃ b ∈ rest, (ges b.idx).finished = true ∧
          validate b.pos (ges b.idx).value ≠ [] := by
        obtain ⟨b, hb, h1, h2⟩ := hfail
        rcases List.mem_cons.1 hb with rfl | hb2
        · exact absurd h1 hf
        · exact ⟨b, hb2, h1, h2⟩
      obtain ⟨b, hb, h1, h2, h3⟩ := ih hrest
      refine ⟨b, List.mem_cons_of_mem a hb, h1, h2, ?_⟩
      simp only [validate_args, hf, Bool.false_eq_true, if_false, h3]
      rfl

/-- Claim C7: when a non-literal argument has become finished and its value
fails validate_argument, Call::eval_calculate raises the hard einval failure
immediately; the diagnostic payload carries the argument position, the
reporter's written report text and the textual form of the offending node,
and Base::eval is never reached (the outcome does not depend on it at
all). -/
theorem call_eval_hard_validation_failure
    (validate : Nat → Value → List String) (ges : Nat → NodeEvalState)
    (unfinished : List ArgRef) (baseEval : NodeEvalState → NodeEvalState)
    (st : NodeEvalState)
    (hfail : ∃ a ∈ unfinished, (ges a.idx).finished = true ∧
      validate a.pos (ges a.idx).value ≠ []) :
    ∃ a ∈ unfinished, (ges a.idx).finished = true ∧
      validate a.pos (ges a.idx).value ≠ [] ∧
      Call.evalCalculate validate ges unfinished baseEval st =
        Except.error ("Argument validation failed: n=" ++ toString a.pos ++
          " report=" ++ reportText (validate a.pos (ges a.idx).value) ++
          " arg=" ++ a.text) ∧
      ∀ g : NodeEvalState → NodeEvalState,
        Call.evalCalculate validate ges unfinished g st =
          Call.evalCalculate validate ges unfinished baseEval st := by
  obtain ⟨a, ha, h1, h2, h3⟩ := validate_args_error validate ges unfinished
    hfail
  refine ⟨a, ha, h1, h2, ?_, ?_⟩
  · simp only [Call.evalCalculate, h3, Except.map_error, errMsg]
    rfl
  · intro g
    simp only [Call.evalCalculate, h3]
    rfl

/-- Witness for claim C7: a single finished argument whose value fails
validation. -/
theorem call_eval_hard_validation_failure_w :
    ∃ a ∈ [ArgRef.mk 1 "(foo)" 0],
      ((fun _ => ⟨Value.scalar 3, true⟩ : Nat → NodeEvalState) a.idx).finished
          = true ∧
      (fun _ _ => ["bad argument"] : Nat → Value → List String) a.pos
          ((fun _ => ⟨Value.scalar 3, true⟩ : Nat → NodeEvalState) a.idx).value
          ≠ [] ∧
      Call.evalCalculate (fun _ _ => ["bad argument"])
          (fun _ => ⟨Value.scalar 3, true⟩) [ArgRef.mk 1 "(foo)" 0]
          (fun s => s) NodeEvalState.init =
        Except.error ("Argument validation failed: n=" ++ toString a.pos ++
          " report=" ++ reportText ((fun _ _ => ["bad argument"]) a.pos
            ((fun _ => (⟨Value.scalar 3, true⟩ : NodeEvalState)) a.idx).value)
          ++ " arg=" ++ a.text) ∧
      ∀ g : NodeEvalState → NodeEvalState,
        Call.evalCalculate (fun _ _ => ["bad argument"])
            (fun _ => ⟨Value.scalar 3, true⟩) [ArgRef.mk 1 "(foo)" 0] g
            NodeEvalState.init =
          Call.evalCalculate (fun _ _ => ["bad argument"])
            (fun _ => ⟨Value.scalar 3, true⟩) [ArgRef.mk 1 "(foo)" 0]
            (fun s => s) NodeEvalState.init :=
  call_eval_hard_validation_failure (fun _ _ => ["bad argument"])
    (fun _ => ⟨Value.scalar 3, true⟩) [ArgRef.mk 1 "(foo)" 0] (fun s => s)
    NodeEvalState.init
    ⟨ArgRef.mk 1 "(foo)" 0, List.mem_singleton.2 rfl, rfl, by decide⟩

/-- Membership in the initialization trace: a node is initialized iff it
occurs among the children and was not already in the seen set. -/
theorem mem_initLoop (l seen : List CNode) (c : CNode) :
    c ∈ initLoop l seen ↔ c ∈ l ∧ c ∉ seen := by
  induction l generalizing seen with
  | nil => simp [initLoop]
  | cons d rest ih =>
    simp only [initLoop]
    by_cases hd : d ∈ seen
    · rw [if_pos hd, ih]
      simp only [List.mem_cons]
      constructor
      · rintro ⟨h1, h2⟩
        exact ⟨Or.inr h1, h2⟩
      · rintro ⟨h1 | h1, h2⟩
        · cases h1
          exact absurd hd h2
        · exact ⟨h1, h2⟩
    · rw [if_neg hd]
      simp only [List.mem_cons, ih, not_or]
      constructor
      · rintro (rfl | ⟨h1, h2, h3⟩)
        · exact ⟨Or.inl rfl, hd⟩
        · exact ⟨Or.inr h1, h3⟩
      · rintro ⟨rfl | h1, h2⟩
        · exact Or.inl rfl
        · by_cases hcd : c = d
          · exact Or.inl hcd
          · exact Or.inr ⟨h1, hcd, h2⟩

/-- The initialization trace never repeats a node. -/
theorem nodup_initLoop (l seen : List CNode) : (initLoop l seen).Nodup := by
  induction l generalizing seen with
  | nil => simp [initLoop]
  | cons d rest ih =>
    simp only [initLoop]
    by_cases hd : d ∈ seen
    · rw [if_pos hd]
      exact ih seen
    · rw [if_neg hd]
      refine List.nodup_cons.2 ⟨?_, ih (d :: seen)⟩
      intro hc
      exact ((mem_initLoop rest (d :: seen) d).1 hc).2 (List.mem_cons_self d
        seen)

/-- Claim C1: for a call node all of whose children are literal, transform
indexes the node 0 and its K children 1..K, allocates an isolated evaluation
context of size K+1, initializes each distinct literal child exactly once,
evaluates the node exactly once in that context, and — when the node's
resulting state is finished — replaces the node by a literal holding the
computed value with the scratch pool's ownership transferred to it and
returns true; when the state is not finished it delegates to Base::transform
instead. -/
theorem call_transform_constant_fold (base : BaseModel)
    (children : List CNode) (hall : children.all CNode.is_literal = true) :
    (Call.transform base children).allLiteral = true ∧
    (Call.transform base children).meIndex = some 0 ∧
    (Call.transform base children).childIndices =
      List.range' 1 children.length ∧
    (Call.transform base children).gesSize = children.length + 1 ∧
    (∀ c, c ∈ (Call.transform base children).initEvents ↔ c ∈ children) ∧
    (Call.transform base children).initEvents.Nodup ∧
    (Call.transform base children).evalCount = 1 ∧
    ((base.eval (children.map CNode.litValue) NodeEvalState.init).finished =
        true →
      (Call.transform base children).replacement =
          some (base.eval (children.map CNode.litValue)
            NodeEvalState.init).value ∧
        (Call.transform base children).poolTransferred = true ∧
        (Call.transform base children).returned = true) ∧
    ((base.eval (children.map CNode.litValue) NodeEvalState.init).finished =
        false →
      (Call.transform base children).replacement = none ∧
        (Call.transform base children).poolTransferred = false ∧
        (Call.transform base children).returned = base.transformResult) := by
  by_cases hf :
    (base.eval (children.map CNode.litValue) NodeEvalState.init).finished
  · have ht : Call.transform base children =
        { allLiteral := true
          meIndex := some 0
          childIndices := List.range' 1 children.length
          gesSize := children.length + 1
          initEvents := initLoop children []
          evalCount := 1
          replacement := some (base.eval (children.map CNode.litValue)
            NodeEvalState.init).value
          poolTransferred := true
          returned := true } := by
      simp [Call.transform, hall, hf]
    rw [ht]
    refine ⟨rfl, rfl, rfl, rfl, ?_, ?_, rfl, fun _ => ⟨rfl, rfl, rfl⟩,
      fun hc => ?_⟩
    · intro c
      rw [mem_initLoop]
      simp
    · exact nodup_initLoop children []
    · rw [hf] at hc
      cases hc
  · have ht : Call.transform base children =
        { allLiteral := true
          meIndex := some 0
          childIndices := List.range' 1 children.length
          gesSize := children.length + 1
          initEvents := initLoop children []
          evalCount := 1
          replacement := none
          poolTransferred := false
          returned := base.transformResult } := by
      simp [Call.transform, hall, hf]
    rw [ht]
    refine ⟨rfl, rfl, rfl, rfl, ?_, ?_, rfl, fun hc => ?_,
      fun _ => ⟨rfl, rfl, rfl⟩⟩
    · intro c
      rw [mem_initLoop]
      simp
    · exact nodup_initLoop children []
    · rw [hc] at hf
      exact absurd rfl hf

/-- Witness for claim C1: folding a call over the literal children
[7, 7, 8] with an addition-like base that finishes immediately. -/
theorem call_transform_constant_fold_w :
    (Call.transform
        ⟨fun vals st => st.finishWith (Value.vlist "folded" vals), false⟩
        [CNode.lit (Value.scalar 7), CNode.lit (Value.scalar 7),
         CNode.lit (Value.scalar 8)]).childIndices = [1, 2, 3] ∧
    (∀ c, c ∈ (Call.transform
        ⟨fun vals st => st.finishWith (Value.vlist "folded" vals), false⟩
        [CNode.lit (Value.scalar 7), CNode.lit (Value.scalar 7),
         CNode.lit (Value.scalar 8)]).initEvents ↔
      c ∈ [CNode.lit (Value.scalar 7), CNode.lit (Value.scalar 7),
         CNode.lit (Value.scalar 8)]) :=
  ⟨(call_transform_constant_fold
      ⟨fun vals st => st.finishWith (Value.vlist "folded" vals), false⟩
      [CNode.lit (Value.scalar 7), CNode.lit (Value.scalar 7),
       CNode.lit (Value.scalar 8)] (by decide)).2.2.1,
    (call_transform_constant_fold
      ⟨fun vals st => st.finishWith (Value.vlist "folded" vals), false⟩
      [CNode.lit (Value.scalar 7), CNode.lit (Value.scalar 7),
       CNode.lit (Value.scalar 8)] (by decide)).2.2.2.2.1⟩

@[simp]
theorem eachDelivered_map_each (pv : Value) (l : List Value) :
    eachDelivered (l.map fun sv => EachEvent.eachEv pv sv) = l := by
  induction l with
  | nil => rfl
  | cons a l ih =>
    simp [eachDelivered] at ih ⊢
    exact ih

@[simp]
theorem selHooks_ready (p : Value → Bool) (st : NodeEvalState)
    (sec : List Value) (s : Unit) (pv : Value) :
    (selHooks p).ready st sec s pv = (st, s) := rfl

@[simp]
theorem selHooks_each (p : Value → Bool) (st : NodeEvalState)
    (sec : List Value) (s : Unit) (pv sv : Value) :
    (selHooks p).eval_each st sec s pv sv =
      (if p sv then st.finishWith sv else st, s) := rfl

@[simp]
theorem filtHooks_ready (g : Value → Bool × Bool) (st : NodeEvalState)
    (sec : List Value) (s : Unit) (pv : Value) :
    (filtHooks g).ready st sec s pv =
      (if pv.isList then st.setup_local_list pv.listName else st, s) := rfl

@[simp]
theorem filtHooks_each (g : Value → Bool × Bool) (st : NodeEvalState)
    (sec : List Value) (s : Unit) (pv sv : Value) :
    (filtHooks g).eval_each st sec s pv sv =
      (if pv.isList then
        (if (g sv).2 then
          (if (g sv).1 then st.append_to_list sv else st).finish
         else if (g sv).1 then st.append_to_list sv else st)
       else if (g sv).1 then st.finishWith sv else st.finish, s) := by
  simp only [filtHooks, Filter.hooks]
  by_cases hl : pv.isList <;> by_cases h1 : (g sv).1 <;>
    by_cases h2 : (g sv).2 <;> simp [hl, h1, h2]

/-- Reduction of Each::eval_primary on a nonempty list primary when the node
is not finished after the ready hook: the streaming loop runs from the
position after the cursor. -/
theorem evalPrimary_unfin_list {σ : Type} (h : EachHooks σ)
    (st : NodeEvalState) (sec : List Value) (es : EachState σ) (nm : String)
    (L : List Value) (f : Bool) (hne : L ≠ [])
    (hr : (h.ready st sec es.subsubstate (Value.vlist nm L)).1.finished =
      false) :
    Each.evalPrimary h st sec es ⟨Value.vlist nm L, f⟩ =
      (if f && ! (eachLoop h sec (Value.vlist nm L)
            (L.drop (if es.initialized then es.last_subvalue + 1 else 0))
            (if es.initialized then es.last_subvalue + 1 else 0)
            (h.ready st sec es.subsubstate (Value.vlist nm L)).1
            ⟨true, es.last_subvalue,
              (h.ready st sec es.subsubstate (Value.vlist nm L)).2⟩).1.finished
        then
          (eachLoop h sec (Value.vlist nm L)
            (L.drop (if es.initialized then es.last_subvalue + 1 else 0))
            (if es.initialized then es.last_subvalue + 1 else 0)
            (h.ready st sec es.subsubstate (Value.vlist nm L)).1
            ⟨true, es.last_subvalue,
              (h.ready st sec es.subsubstate
                (Value.vlist nm L)).2⟩).1.finish
        else
          (eachLoop h sec (Value.vlist nm L)
            (L.drop (if es.initialized then es.last_subvalue + 1 else 0))
            (if es.initialized then es.last_subvalue + 1 else 0)
            (h.ready st sec es.subsubstate (Value.vlist nm L)).1
            ⟨true, es.last_subvalue,
              (h.ready st sec es.subsubstate (Value.vlist nm L)).2⟩).1,
       (eachLoop h sec (Value.vlist nm L)
          (L.drop (if es.initialized then es.last_subvalue + 1 else 0))
          (if es.initialized then es.last_subvalue + 1 else 0)
          (h.ready st sec es.subsubstate (Value.vlist nm L)).1
          ⟨true, es.last_subvalue,
            (h.ready st sec es.subsubstate (Value.vlist nm L)).2⟩).2) := by
  have hie : L.isEmpty = false := by
    cases L with
    | nil => exact absurd rfl hne
    | cons a l => rfl
  simp only [Each.evalPrimary, hie, Bool.false_eq_true, if_false, hr]

/-- Reduction of Each::eval_primary on a nonempty list primary when the node
is (still) finished after the ready hook: nothing is streamed. -/
theorem evalPrimary_fin_list {σ : Type} (h : EachHooks σ)
    (st : NodeEvalState) (sec : List Value) (es : EachState σ) (nm : String)
    (L : List Value) (f : Bool) (hne : L ≠ [])
    (hr : (h.ready st sec es.subsubstate (Value.vlist nm L)).1.finished =
      true) :
    Each.evalPrimary h st sec es ⟨Value.vlist nm L, f⟩ =
      ((h.ready st sec es.subsubstate (Value.vlist nm L)).1,
        ⟨es.initialized, es.last_subvalue,
          (h.ready st sec es.subsubstate (Value.vlist nm L)).2⟩) := by
  have hie : L.isEmpty = false := by
    cases L with
    | nil => exact absurd rfl hne
    | cons a l => rfl
  simp only [Each.evalPrimary, hie, Bool.false_eq_true, if_false, hr,
    if_true]

/-- Reduction of Each::eval_primary on an empty list primary. -/
theorem evalPrimary_empty_list {σ : Type} (h : EachHooks σ)
    (st : NodeEvalState) (sec : List Value) (es : EachState σ) (nm : String)
    (f : Bool) :
    Each.evalPrimary h st sec es ⟨Value.vlist nm [], f⟩ =
      (if f && ! (h.ready st sec es.subsubstate (Value.vlist nm [])).1.finished
        then (h.ready st sec es.subsubstate (Value.vlist nm [])).1.finish
        else (h.ready st sec es.subsubstate (Value.vlist nm [])).1,
       ⟨es.initialized, es.last_subvalue,
         (h.ready st sec es.subsubstate (Value.vlist nm [])).2⟩) := by
  simp [Each.evalPrimary]

@[simp]
theorem finishWith_finished (s : NodeEvalState) (v : Value) :
    (s.finishWith v).finished = true := rfl

@[simp]
theorem finishWith_value (s : NodeEvalState) (v : Value) :
    (s.finishWith v).value = v := rfl

@[simp]
theorem finish_finished (s : NodeEvalState) : s.finish.finished = true := rfl

@[simp]
theorem finish_value (s : NodeEvalState) : s.finish.value = s.value := rfl

/-- Streaming a stateless selector over elements that all fail the predicate
leaves the node state untouched and delivers every element. -/
theorem selLoop_no_match (p : Value → Bool) (sec : List Value) (pv : Value)
    (L : List Value) (i : Nat) (st : NodeEvalState)
    (es : EachState (Unit × List EachEvent))
    (hst : st.finished = false) (hnone : ∀ u ∈ L, p u = false) :
    (eachLoop (traceHooks (selHooks p)) sec pv L i st es).1 = st ∧
    (eachLoop (traceHooks (selHooks p)) sec pv L i st es).2.subsubstate.2 =
      es.subsubstate.2 ++ L.map (fun u => EachEvent.eachEv pv u) := by
  induction L generalizing i st es with
  | nil => exact ⟨rfl, by simp [eachLoop]⟩
  | cons u L ih =>
    have hu : p u = false := hnone u (List.mem_cons_self u L)
    have hrest : ∀ w ∈ L, p w = false :=
      fun w hw => hnone w (List.mem_cons_of_mem u hw)
    simp only [eachLoop, traceHooks_each_fst, traceHooks_each_snd,
      selHooks_each, hu, Bool.false_eq_true, if_false, hst]
    obtain ⟨h1, h2⟩ := ih (i + 1) st
      { es with
          subsubstate := (es.subsubstate.1,
            es.subsubstate.2 ++ [EachEvent.eachEv pv u])
          last_subvalue := i } hst hrest
    refine ⟨h1, ?_⟩
    rw [h2]
    simp

/-- Streaming a stateless selector over a list whose first passing element
is v finishes the node with v, delivering exactly the elements up to and
including v. -/
theorem selLoop_first_match (p : Value → Bool) (sec : List Value)
    (pv : Value) (L1 L2 : List Value) (v : Value) (i : Nat)
    (st : NodeEvalState) (es : EachState (Unit × List EachEvent))
    (hst : st.finished = false) (hnone : ∀ u ∈ L1, p u = false)
    (hv : p v = true) :
    (eachLoop (traceHooks (selHooks p)) sec pv (L1 ++ v :: L2) i st es).1 =
      st.finishWith v ∧
    (eachLoop (traceHooks (selHooks p)) sec pv (L1 ++ v :: L2) i st
        es).2.subsubstate.2 =
      es.subsubstate.2 ++ (L1 ++ [v]).map (fun u => EachEvent.eachEv pv u) :=
  by
  induction L1 generalizing i st es with
  | nil =>
    simp only [List.nil_append, eachLoop, traceHooks_each_fst,
      traceHooks_each_snd, selHooks_each, hv, if_true, finishWith_finished]
    constructor
    · simp
    · simp
  | cons u L1 ih =>
    have hu : p u = false := hnone u (List.mem_cons_self u L1)
    have hrest : ∀ w ∈ L1, p w = false :=
      fun w hw => hnone w (List.mem_cons_of_mem u hw)
    simp only [List.cons_append, eachLoop, traceHooks_each_fst,
      traceHooks_each_snd, selHooks_each, hu, Bool.false_eq_true, if_false,
      hst, List.append_eq]
    obtain ⟨h1, h2⟩ := ih (i + 1) st
      { es with
          subsubstate := (es.subsubstate.1,
            es.subsubstate.2 ++ [EachEvent.eachEv pv u])
          last_subvalue := i } hst hrest
    refine ⟨h1, ?_⟩
    rw [h2]
    simp

/-- Claim C5: a Selector node over a list primary finishes with the first
subvalue (in list order) passing eval_selector; the subvalues passed to
eval_selector are exactly the elements up to and including that first match
(later elements are never evaluated), and once the node is finished a
further eval_primary invocation on a list primary passes no subvalue to
eval_selector at all. -/
theorem selector_first_match (p : Value → Bool) (sec : List Value)
    (nm : String) (L1 L2 : List Value) (v : Value) (fin : Bool)
    (hnone : ∀ u ∈ L1, p u = false) (hv : p v = true) :
    (Each.evalPrimary (traceHooks (selHooks p)) NodeEvalState.init sec
        (EachState.mk0 ((), [])) ⟨Value.vlist nm (L1 ++ v :: L2), fin⟩).1 =
      ⟨v, true⟩ ∧
    eachDelivered
        ((Each.evalPrimary (traceHooks (selHooks p)) NodeEvalState.init sec
          (EachState.mk0 ((), []))
          ⟨Value.vlist nm (L1 ++ v :: L2), fin⟩).2.subsubstate.2) =
      L1 ++ [v] ∧
    (∀ (st2 : NodeEvalState) (es2 : EachState (Unit × List EachEvent))
        (primary2 : NodeEvalState) (nm2 : String) (M : List Value),
      primary2.value = Value.vlist nm2 M → st2.finished = true →
        eachDelivered
            ((Each.evalPrimary (traceHooks (selHooks p)) st2 sec es2
              primary2).2.subsubstate.2) =
          eachDelivered es2.subsubstate.2) := by
  have hne : L1 ++ v :: L2 ≠ [] := by simp
  have hred := evalPrimary_unfin_list (traceHooks (selHooks p))
    NodeEvalState.init sec (EachState.mk0 ((), [])) nm (L1 ++ v :: L2) fin
    hne rfl
  simp only [EachState.mk0, traceHooks_ready_fst, traceHooks_ready_snd,
    selHooks_ready, List.nil_append, List.drop_zero, Bool.false_eq_true,
    if_false] at hred
  obtain ⟨h1, h2⟩ := selLoop_first_match p sec
    (Value.vlist nm (L1 ++ v :: L2)) L1 L2 v 0 NodeEvalState.init
    ⟨true, 0, ((), [EachEvent.readyEv (Value.vlist nm (L1 ++ v :: L2))])⟩
    rfl hnone hv
  refine ⟨?_, ?_, ?_⟩
  · simp only [EachState.mk0]
    rw [hred, h1]
    simp [NodeEvalState.finishWith, NodeEvalState.init]
  · simp only [EachState.mk0]
    rw [hred]
    simp [h2]
  · intro st2 es2 primary2 nm2 M hpv hfin
    exact (evalPrimary_finished_list (selHooks p) st2 sec es2 primary2 nm2 M
      hpv hfin).1

/-- Witness for claim C5: primary list [2, 5, 8] with the predicate
value > 4 finishes with 5, and 8 is never passed to eval_selector. -/
theorem selector_first_match_w :
    (Each.evalPrimary
        (traceHooks (selHooks fun w =>
          match w with
          | Value.scalar n => decide (4 < n)
          | _ => false))
        NodeEvalState.init [] (EachState.mk0 ((), []))
        ⟨Value.vlist "p" [Value.scalar 2, Value.scalar 5, Value.scalar 8],
         true⟩).1 = ⟨Value.scalar 5, true⟩ ∧
    eachDelivered
        ((Each.evalPrimary
          (traceHooks (selHooks fun w =>
            match w with
            | Value.scalar n => decide (4 < n)
            | _ => false))
          NodeEvalState.init [] (EachState.mk0 ((), []))
          ⟨Value.vlist "p" [Value.scalar 2, Value.scalar 5, Value.scalar 8],
           true⟩).2.subsubstate.2) = [Value.scalar 2, Value.scalar 5] := by
  have hsel := selector_first_match
    (fun w =>
      match w with
      | Value.scalar n => decide (4 < n)
      | _ => false)
    [] "p" [Value.scalar 2] [Value.scalar 8] (Value.scalar 5) true
    (by decide) (by decide)
  exact ⟨hsel.1, hsel.2.1⟩

@[simp]
theorem append_to_list_vlist (nm : String) (l : List Value) (f : Bool)
    (v : Value) :
    NodeEvalState.append_to_list ⟨Value.vlist nm l, f⟩ v =
      ⟨Value.vlist nm (l ++ [v]), f⟩ := rfl

@[simp]
theorem setup_local_list_null (nm : String) (f : Bool) :
    NodeEvalState.setup_local_list ⟨Value.null, f⟩ nm =
      ⟨Value.vlist nm [], f⟩ := rfl

@[simp]
theorem setup_local_list_vlist (nm0 nm : String) (l : List Value) (f : Bool) :
    NodeEvalState.setup_local_list ⟨Value.vlist nm0 l, f⟩ nm =
      ⟨Value.vlist nm0 l, f⟩ := rfl

@[simp]
theorem setup_local_list_finished (s : NodeEvalState) (nm : String) :
    (s.setup_local_list nm).finished = s.finished := by
  obtain ⟨v, f⟩ := s
  cases v <;> rfl

/-- Streaming a stateless filter over elements none of which requests an
early finish: passing elements are appended to the local output list, the
node stays running, and every element is delivered. -/
theorem filtLoop_no_early (g : Value → Bool × Bool) (sec : List Value)
    (pv : Value) (hl : pv.isList = true) (L : List Value) (i : Nat)
    (nm : String) (acc : List Value)
    (es : EachState (Unit × List EachEvent))
    (hnone : ∀ u ∈ L, (g u).2 = false) :
    (eachLoop (traceHooks (filtHooks g)) sec pv L i
        ⟨Value.vlist nm acc, false⟩ es).1 =
      ⟨Value.vlist nm (acc ++ L.filter fun u => (g u).1), false⟩ ∧
    (eachLoop (traceHooks (filtHooks g)) sec pv L i
        ⟨Value.vlist nm acc, false⟩ es).2.subsubstate.2 =
      es.subsubstate.2 ++ L.map (fun u => EachEvent.eachEv pv u) := by
  induction L generalizing i acc es with
  | nil => exact ⟨by simp [eachLoop], by simp [eachLoop]⟩
  | cons u L ih =>
    have hu : (g u).2 = false := hnone u (List.mem_cons_self u L)
    have hrest : ∀ w ∈ L, (g w).2 = false :=
      fun w hw => hnone w (List.mem_cons_of_mem u hw)
    by_cases hp : (g u).1
    · simp only [eachLoop, traceHooks_each_fst, traceHooks_each_snd,
        filtHooks_each, hl, if_true, hu, hp, Bool.false_eq_true, if_false,
        append_to_list_vlist, List.append_eq]
      obtain ⟨h1, h2⟩ := ih (i + 1) (acc ++ [u])
        { es with
            subsubstate := (es.subsubstate.1,
              es.subsubstate.2 ++ [EachEvent.eachEv pv u])
            last_subvalue := i } hrest
      refine ⟨?_, ?_⟩
      · rw [h1]
        simp [hp]
      · rw [h2]
        simp
    · simp only [eachLoop, traceHooks_each_fst, traceHooks_each_snd,
        filtHooks_each, hl, if_true, hu, hp, Bool.false_eq_true, if_false,
        List.append_eq]
      obtain ⟨h1, h2⟩ := ih (i + 1) acc
        { es with
            subsubstate := (es.subsubstate.1,
              es.subsubstate.2 ++ [EachEvent.eachEv pv u])
            last_subvalue := i } hrest
      refine ⟨?_, ?_⟩
      · rw [h1]
        simp [hp]
      · rw [h2]
        simp

/-- Streaming a stateless filter over a list whose first early-finish
element is v: the node finishes with the passing elements up to and
including v in its local output list, and exactly the elements up to and
including v are delivered. -/
theorem filtLoop_first_early (g : Value → Bool × Bool) (sec : List Value)
    (pv : Value) (hl : pv.isList = true) (L1 L2 : List Value) (v : Value)
    (i : Nat) (nm : String) (acc : List Value)
    (es : EachState (Unit × List EachEvent))
    (hnone : ∀ u ∈ L1, (g u).2 = false) (hv : (g v).2 = true) :
    (eachLoop (traceHooks (filtHooks g)) sec pv (L1 ++ v :: L2) i
        ⟨Value.vlist nm acc, false⟩ es).1 =
      ⟨Value.vlist nm (acc ++ (L1 ++ [v]).filter fun u => (g u).1), true⟩ ∧
    (eachLoop (traceHooks (filtHooks g)) sec pv (L1 ++ v :: L2) i
        ⟨Value.vlist nm acc, false⟩ es).2.subsubstate.2 =
      es.subsubstate.2 ++ (L1 ++ [v]).map (fun u => EachEvent.eachEv pv u) :=
  by
  induction L1 generalizing i acc es with
  | nil =>
    by_cases hp : (g v).1
    · simp only [List.nil_append, eachLoop, traceHooks_each_fst,
        traceHooks_each_snd, filtHooks_each, hl, if_true, hv, hp,
        append_to_list_vlist]
      constructor
      · simp [List.filter, hp, NodeEvalState.finish]
      · simp
    · simp only [List.nil_append, eachLoop, traceHooks_each_fst,
        traceHooks_each_snd, filtHooks_each, hl, if_true, hv, hp,
        Bool.false_eq_true, if_false]
      constructor
      · simp [List.filter, hp, NodeEvalState.finish]
      · simp
  | cons u L1 ih =>
    have hu : (g u).2 = false := hnone u (List.mem_cons_self u L1)
    have hrest : ∀ w ∈ L1, (g w).2 = false :=
      fun w hw => hnone w (List.mem_cons_of_mem u hw)
    by_cases hp : (g u).1
    · simp only [List.cons_append, eachLoop, traceHooks_each_fst,
        traceHooks_each_snd, filtHooks_each, hl, if_true, hu, hp,
        Bool.false_eq_true, if_false, append_to_list_vlist, List.append_eq]
      obtain ⟨h1, h2⟩ := ih (i + 1) (acc ++ [u])
        { es with
            subsubstate := (es.subsubstate.1,
              es.subsubstate.2 ++ [EachEvent.eachEv pv u])
            last_subvalue := i } hrest
      refine ⟨?_, ?_⟩
      · rw [h1]
        simp [hp]
      · rw [h2]
        simp
    · simp only [List.cons_append, eachLoop, traceHooks_each_fst,
        traceHooks_each_snd, filtHooks_each, hl, if_true, hu, hp,
        Bool.false_eq_true, if_false, List.append_eq]
      obtain ⟨h1, h2⟩ := ih (i + 1) acc
        { es with
            subsubstate := (es.subsubstate.1,
              es.subsubstate.2 ++ [EachEvent.eachEv pv u])
            last_subvalue := i } hrest
      refine ⟨?_, ?_⟩
      · rw [h1]
        simp [hp]
      · rw [h2]
        simp

/-- Claim C6: a Filter node over a list primary that is still open finishes
immediately when eval_filter first sets early_finish, its local output list
holding exactly the passing subvalues up to and including the early-finish
element; the subvalues passed to eval_filter are exactly the elements up to
and including that element — later elements already buffered in the primary
list are not evaluated — and once finished, a further eval_primary
invocation on a list primary passes no subvalue to eval_filter. -/
theorem filter_early_finish (g : Value → Bool × Bool) (sec : List Value)
    (nm : String) (L1 L2 : List Value) (v : Value)
    (hnone : ∀ u ∈ L1, (g u).2 = false) (hv : (g v).2 = true) :
    (Each.evalPrimary (traceHooks (filtHooks g)) NodeEvalState.init sec
        (EachState.mk0 ((), []))
        ⟨Value.vlist nm (L1 ++ v :: L2), false⟩).1 =
      ⟨Value.vlist nm ((L1 ++ [v]).filter fun u => (g u).1), true⟩ ∧
    eachDelivered
        ((Each.evalPrimary (traceHooks (filtHooks g)) NodeEvalState.init sec
          (EachState.mk0 ((), []))
          ⟨Value.vlist nm (L1 ++ v :: L2), false⟩).2.subsubstate.2) =
      L1 ++ [v] ∧
    (∀ (st2 : NodeEvalState) (es2 : EachState (Unit × List EachEvent))
        (primary2 : NodeEvalState) (nm2 : String) (M : List Value),
      primary2.value = Value.vlist nm2 M → st2.finished = true →
        eachDelivered
            ((Each.evalPrimary (traceHooks (filtHooks g)) st2 sec es2
              primary2).2.subsubstate.2) =
          eachDelivered es2.subsubstate.2) := by
  have hne : L1 ++ v :: L2 ≠ [] := by simp
  have hred := evalPrimary_unfin_list (traceHooks (filtHooks g))
    NodeEvalState.init sec (EachState.mk0 ((), [])) nm (L1 ++ v :: L2) false
    hne (by simp [NodeEvalState.init, Value.isList])
  simp only [EachState.mk0, traceHooks_ready_fst, traceHooks_ready_snd,
    filtHooks_ready, Value.isList, if_true, Value.listName,
    NodeEvalState.init, setup_local_list_null, List.nil_append,
    List.drop_zero, Bool.false_and, Bool.false_eq_true, if_false] at hred
  obtain ⟨h1, h2⟩ := filtLoop_first_early g sec
    (Value.vlist nm (L1 ++ v :: L2)) rfl L1 L2 v 0 nm []
    ⟨true, 0, ((), [EachEvent.readyEv (Value.vlist nm (L1 ++ v :: L2))])⟩
    hnone hv
  refine ⟨?_, ?_, ?_⟩
  · simp only [EachState.mk0, NodeEvalState.init]
    rw [hred, h1]
    simp
  · simp only [EachState.mk0, NodeEvalState.init]
    rw [hred]
    simp [h2]
  · intro st2 es2 primary2 nm2 M hpv hfin
    exact (evalPrimary_finished_list (filtHooks g) st2 sec es2 primary2 nm2 M
      hpv (by simp [Value.isList, hfin])).1

/-- Witness for claim C6: filter keeping even values with early finish on 3,
over the open primary list [2, 3, 4]: output [2], finished, and 4 never
evaluated. -/
theorem filter_early_finish_w :
    (Each.evalPrimary
        (traceHooks (filtHooks fun w =>
          match w with
          | Value.scalar n => (decide (n % 2 = 0), decide (n = 3))
          | _ => (false, false)))
        NodeEvalState.init [] (EachState.mk0 ((), []))
        ⟨Value.vlist "p" [Value.scalar 2, Value.scalar 3, Value.scalar 4],
         false⟩).1 =
      ⟨Value.vlist "p" [Value.scalar 2], true⟩ ∧
    eachDelivered
        ((Each.evalPrimary
          (traceHooks (filtHooks fun w =>
            match w with
            | Value.scalar n => (decide (n % 2 = 0), decide (n = 3))
            | _ => (false, false)))
          NodeEvalState.init [] (EachState.mk0 ((), []))
          ⟨Value.vlist "p" [Value.scalar 2, Value.scalar 3, Value.scalar 4],
           false⟩).2.subsubstate.2) = [Value.scalar 2, Value.scalar 3] := by
  have hfil := filter_early_finish
    (fun w =>
      match w with
      | Value.scalar n => (decide (n % 2 = 0), decide (n = 3))
      | _ => (false, false))
    [] "p" [Value.scalar 2] [Value.scalar 4] (Value.scalar 3)
    (by decide) (by decide)
  refine ⟨?_, hfil.2.1⟩
  have := hfil.1
  simpa using this

theorem take_eq_of_isPre {α : Type} (l1 l2 : List α) (k : Nat)
    (hp : l1 <+: l2) (hk : k ≤ l1.length) : l1.take k = l2.take k := by
  obtain ⟨t, rfl⟩ := hp
  rw [List.take_append_eq_append_take, Nat.sub_eq_zero_of_le hk]
  simp

/-- One eval_primary invocation preserves the initialized flag once set and
never rewinds the cursor. -/
theorem evalPrimary_cursor_mono {σ : Type} (h : EachHooks σ)
    (st : NodeEvalState) (sec : List Value) (es : EachState σ)
    (primary : NodeEvalState) (hinit : es.initialized = true) :
    (Each.evalPrimary h st sec es primary).2.initialized = true ∧
    es.last_subvalue ≤
      (Each.evalPrimary h st sec es primary).2.last_subvalue := by
  obtain ⟨v, f⟩ := primary
  match v with
  | Value.null =>
      by_cases hf : f <;> simp [Each.evalPrimary, hf, hinit]
  | Value.scalar n =>
      simp [Each.evalPrimary, hinit]
  | Value.vlist nm L =>
      by_cases he : L = []
      · subst he
        rw [evalPrimary_empty_list]
        simpa using hinit
      · by_cases hr :
          (h.ready st sec es.subsubstate (Value.vlist nm L)).1.finished
        · rw [evalPrimary_fin_list h st sec es nm L f he hr]
          simpa using hinit
        · rw [evalPrimary_unfin_list h st sec es nm L f he
            (by simp [hr])]
          simp only [hinit, if_true]
          constructor
          · rw [eachLoop_initialized]
          · rcases eachLoop_cursor_mono h sec (Value.vlist nm L)
                (L.drop (es.last_subvalue + 1)) (es.last_subvalue + 1)
                (h.ready st sec es.subsubstate (Value.vlist nm L)).1
                ⟨true, es.last_subvalue,
                  (h.ready st sec es.subsubstate (Value.vlist nm L)).2⟩ with
              heq | hle
            · rw [heq]
            · exact le_trans (Nat.le_succ _) hle

/-- One eval_primary invocation on a snapshot of the growing primary list
preserves the prefix-delivery invariant, provided the ready hook keeps a
finished node finished. -/
theorem evalPrimary_delivered_pre {σ : Type} (h : EachHooks σ)
    (sec : List Value)
    (hfp : ∀ (st2 : NodeEvalState) (s2 : σ) (pv : Value),
      st2.finished = true → (h.ready st2 sec s2 pv).1.finished = true)
    (st : NodeEvalState) (es : EachState (σ × List EachEvent))
    (L Lnew : List Value) (nm : String) (f : Bool) (hpre : L <+: Lnew)
    (hinv : DeliveredPrefix st es L) :
    DeliveredPrefix
      (Each.evalPrimary (traceHooks h) st sec es ⟨Value.vlist nm Lnew, f⟩).1
      (Each.evalPrimary (traceHooks h) st sec es ⟨Value.vlist nm Lnew, f⟩).2
      Lnew := by
  obtain ⟨k, hdel, hk, hni, hii, hrun⟩ := hinv
  have hkL : k ≤ Lnew.length := le_trans hk hpre.length_le
  have hdel2 : eachDelivered es.subsubstate.2 = Lnew.take k := by
    rw [hdel]
    exact take_eq_of_isPre L Lnew k hpre hk
  by_cases hst : st.finished
  · have hrf : ∀ pv, ((traceHooks h).ready st sec es.subsubstate
        pv).1.finished = true := by
      intro pv
      simpa using hfp st es.subsubstate.1 pv hst
    by_cases he : Lnew = []
    · subst he
      rw [evalPrimary_empty_list]
      refine ⟨k, ?_, hkL, hni, hii, ?_⟩
      · simpa using hdel2
      · intro _ hfin2
        rw [hrf (Value.vlist nm []), Bool.not_true, Bool.and_false] at hfin2
        simp only [Bool.false_eq_true, if_false] at hfin2
        rw [hrf (Value.vlist nm [])] at hfin2
        cases hfin2
    · rw [evalPrimary_fin_list (traceHooks h) st sec es nm Lnew f he
        (hrf (Value.vlist nm Lnew))]
      refine ⟨k, ?_, hkL, hni, hii, ?_⟩
      · simpa using hdel2
      · intro _ hfin2
        rw [hrf (Value.vlist nm Lnew)] at hfin2
        cases hfin2
  · have hstf : st.finished = false := by
      cases hq : st.finished
      · rfl
      · exact absurd hq hst
    by_cases he : Lnew = []
    · subst he
      have hL : L = [] := List.prefix_nil.1 hpre
      have hk0 : k = 0 := by
        rw [hL] at hk
        simpa using hk
      have hini : es.initialized = false := by
        cases hq : es.initialized
        · rfl
        · have := hii hq
          omega
      rw [evalPrimary_empty_list]
      refine ⟨0, ?_, by simp, fun _ => rfl, ?_, ?_⟩
      · simpa [hk0] using hdel2
      · intro h2
        simp only [hini] at h2
        cases h2
      · intro h2
        simp only [hini] at h2
        cases h2
    · by_cases hr : (h.ready st sec es.subsubstate.1
          (Value.vlist nm Lnew)).1.finished
      · rw [evalPrimary_fin_list (traceHooks h) st sec es nm Lnew f he
          (by simpa using hr)]
        refine ⟨k, ?_, hkL, hni, hii, ?_⟩
        · simpa using hdel2
        · intro _ hfin2
          simp only [traceHooks_ready_fst] at hfin2
          rw [hr] at hfin2
          cases hfin2
      · rw [evalPrimary_unfin_list (traceHooks h) st sec es nm Lnew f he
          (by simpa using hr)]
        by_cases hini : es.initialized
        · obtain ⟨hkl, hcur⟩ := hrun hini hstf
          simp only [hini, if_true, hcur]
          obtain ⟨j, hj, hjne, htr, hjfin⟩ := eachLoop_delivered h sec
            (Value.vlist nm Lnew) (Lnew.drop k) k
            ((traceHooks h).ready st sec es.subsubstate
              (Value.vlist nm Lnew)).1
            ⟨true, es.last_subvalue,
              ((traceHooks h).ready st sec es.subsubstate
                (Value.vlist nm Lnew)).2⟩
          rw [List.length_drop] at hj
          refine ⟨k + j, ?_, by omega, ?_, ?_, ?_⟩
          · simp only [traceHooks_ready_snd] at htr
            simp only [traceHooks_ready_snd, htr, eachDelivered_append,
              eachDelivered_ready, eachDelivered_map_each, List.append_nil,
              hdel2]
            exact (List.take_add Lnew k j).symm
          · intro h2
            rw [eachLoop_initialized] at h2
            cases h2
          · intro _
            have := hii hini
            omega
          · intro _ hfin2
            have hLf : (eachLoop (traceHooks h) sec (Value.vlist nm Lnew)
                (Lnew.drop k) k
                ((traceHooks h).ready st sec es.subsubstate
                  (Value.vlist nm Lnew)).1
                ⟨true, es.last_subvalue,
                  ((traceHooks h).ready st sec es.subsubstate
                    (Value.vlist nm Lnew)).2⟩).1.finished = false := by
              cases hq : (eachLoop (traceHooks h) sec (Value.vlist nm Lnew)
                  (Lnew.drop k) k
                  ((traceHooks h).ready st sec es.subsubstate
                    (Value.vlist nm Lnew)).1
                  ⟨true, es.last_subvalue,
                    ((traceHooks h).ready st sec es.subsubstate
                      (Value.vlist nm Lnew)).2⟩).1.finished
              · rfl
              · rw [hq, Bool.not_true, Bool.and_false] at hfin2
                simp only [Bool.false_eq_true, if_false] at hfin2
                rw [hq] at hfin2
                cases hfin2
            have hjj := hjfin hLf
            obtain ⟨hc1, hc2⟩ := eachLoop_cursor_final (traceHooks h) sec
              (Value.vlist nm Lnew) (Lnew.drop k) k
              ((traceHooks h).ready st sec es.subsubstate
                (Value.vlist nm Lnew)).1
              ⟨true, es.last_subvalue,
                ((traceHooks h).ready st sec es.subsubstate
                  (Value.vlist nm Lnew)).2⟩ hLf
            constructor
            · rw [hjj, List.length_drop]
              omega
            · by_cases hdn : Lnew.drop k = []
              · have hlen : Lnew.length - k = 0 := by
                  simpa using congrArg List.length hdn
                rw [hc1 hdn, hcur, hjj, List.length_drop]
                omega
              · have hcc := hc2 hdn
                rw [hcc, hjj]
        · have hk0 : k = 0 := hni (by
            cases hq : es.initialized
            · rfl
            · exact absurd hq hini)
          have hinif : es.initialized = false := by
            cases hq : es.initialized
            · rfl
            · exact absurd hq hini
          simp only [hinif, Bool.false_eq_true, if_false, List.drop_zero]
          obtain ⟨j, hj, hjne, htr, hjfin⟩ := eachLoop_delivered h sec
            (Value.vlist nm Lnew) Lnew 0
            ((traceHooks h).ready st sec es.subsubstate
              (Value.vlist nm Lnew)).1
            ⟨true, es.last_subvalue,
              ((traceHooks h).ready st sec es.subsubstate
                (Value.vlist nm Lnew)).2⟩
          refine ⟨j, ?_, hj, ?_, fun _ => hjne he, ?_⟩
          · simp only [traceHooks_ready_snd] at htr
            simp only [traceHooks_ready_snd, htr, eachDelivered_append,
              eachDelivered_ready, eachDelivered_map_each, List.append_nil,
              hdel2, hk0, List.take_zero, List.nil_append]
          · intro h2
            rw [eachLoop_initialized] at h2
            cases h2
          · intro _ hfin2
            have hLf : (eachLoop (traceHooks h) sec (Value.vlist nm Lnew)
                Lnew 0
                ((traceHooks h).ready st sec es.subsubstate
                  (Value.vlist nm Lnew)).1
                ⟨true, es.last_subvalue,
                  ((traceHooks h).ready st sec es.subsubstate
                    (Value.vlist nm Lnew)).2⟩).1.finished = false := by
              cases hq : (eachLoop (traceHooks h) sec (Value.vlist nm Lnew)
                  Lnew 0
                  ((traceHooks h).ready st sec es.subsubstate
                    (Value.vlist nm Lnew)).1
                  ⟨true, es.last_subvalue,
                    ((traceHooks h).ready st sec es.subsubstate
                      (Value.vlist nm Lnew)).2⟩).1.finished
              · rfl
              · rw [hq, Bool.not_true, Bool.and_false] at hfin2
                simp only [Bool.false_eq_true, if_false] at hfin2
                rw [hq] at hfin2
                cases hfin2
            have hjj := hjfin hLf
            obtain ⟨hc1, hc2⟩ := eachLoop_cursor_final (traceHooks h) sec
              (Value.vlist nm Lnew) Lnew 0
              ((traceHooks h).ready st sec es.subsubstate
                (Value.vlist nm Lnew)).1
              ⟨true, es.last_subvalue,
                ((traceHooks h).ready st sec es.subsubstate
                  (Value.vlist nm Lnew)).2⟩ hLf
            refine ⟨hjj, ?_⟩
            rw [hc2 he, hjj]
            exact Nat.zero_add _

/-- The prefix-delivery invariant is preserved along any prefix-monotone,
freeze-respecting history of primary snapshots. -/
theorem runEach_delivered_pre {σ : Type} (h : EachHooks σ)
    (sec : List Value)
    (hfp : ∀ (st2 : NodeEvalState) (s2 : σ) (pv : Value),
      st2.finished = true → (h.ready st2 sec s2 pv).1.finished = true)
    (nm : String) (snaps : List (List Value × Bool))
    (q : List Value × Bool) (st : NodeEvalState)
    (es : EachState (σ × List EachEvent))
    (hch : List.Chain' prefFreeze (q :: snaps))
    (hinv : DeliveredPrefix st es q.1) :
    DeliveredPrefix
      (runEach (traceHooks h) sec (snaps.map (snapState nm)) st es).1
      (runEach (traceHooks h) sec (snaps.map (snapState nm)) st es).2
      (lastSnap q snaps).1 := by
  induction snaps generalizing q st es with
  | nil => exact hinv
  | cons r snaps ih =>
    have hstep := (List.chain'_cons.1 hch).1
    have hch2 := (List.chain'_cons.1 hch).2
    simp only [List.map_cons, runEach]
    exact ih r _ _ hch2
      (evalPrimary_delivered_pre h sec hfp st es q.1 r.1 nm r.2 hstep.1
        hinv)

/-- One eval_primary invocation on a snapshot of the growing primary list
preserves the exact-delivery invariant when the hooks never change the
node's finished flag. -/
theorem evalPrimary_delivered_exact {σ : Type} (h : EachHooks σ)
    (sec : List Value)
    (hnfr : ∀ (st2 : NodeEvalState) (s2 : σ) (pv : Value),
      (h.ready st2 sec s2 pv).1.finished = st2.finished)
    (hnfe : ∀ (st2 : NodeEvalState) (s2 : σ) (pv sv : Value),
      (h.eval_each st2 sec s2 pv sv).1.finished = st2.finished)
    (st : NodeEvalState) (es : EachState (σ × List EachEvent))
    (L Lnew : List Value) (nm : String) (f fnew : Bool)
    (hstep : prefFreeze (L, f) (Lnew, fnew))
    (hinv : DeliveredExact st es L f) :
    DeliveredExact
      (Each.evalPrimary (traceHooks h) st sec es
        ⟨Value.vlist nm Lnew, fnew⟩).1
      (Each.evalPrimary (traceHooks h) st sec es
        ⟨Value.vlist nm Lnew, fnew⟩).2
      Lnew fnew := by
  obtain ⟨hdel, hff, hcur⟩ := hinv
  have hflag : ∀ (rest : List Value) (i : Nat) (st2 : NodeEvalState)
      (es2 : EachState (σ × List EachEvent)),
      (eachLoop (traceHooks h) sec (Value.vlist nm Lnew) rest i st2
        es2).1.finished = st2.finished :=
    fun rest i st2 es2 => eachLoop_finished_flag (traceHooks h) sec
      (Value.vlist nm Lnew) rest i st2 es2
      (fun st3 s3 sv => by simpa using hnfe st3 s3.1 (Value.vlist nm Lnew) sv)
  by_cases hst : st.finished
  · have hf : f = true := hff hst
    have hfr : (Lnew, fnew) = (L, f) := hstep.2 hf
    have hLeq : Lnew = L := congrArg Prod.fst hfr
    have hFeq : fnew = f := congrArg Prod.snd hfr
    have hrf : ((traceHooks h).ready st sec es.subsubstate
        (Value.vlist nm Lnew)).1.finished = true := by
      simp only [traceHooks_ready_fst]
      rw [hnfr st es.subsubstate.1 (Value.vlist nm Lnew)]
      exact hst
    by_cases he : Lnew = []
    · subst he
      rw [evalPrimary_empty_list]
      rw [hrf, Bool.not_true, Bool.and_false]
      simp only [Bool.false_eq_true, if_false]
      refine ⟨?_, ?_, ?_⟩
      · simpa [← hLeq] using hdel
      · intro _
        rw [hFeq]
        exact hf
      · intro hc
        rw [hrf] at hc
        cases hc
    · rw [evalPrimary_fin_list (traceHooks h) st sec es nm Lnew fnew he hrf]
      refine ⟨?_, ?_, ?_⟩
      · simp only [traceHooks_ready_snd, eachDelivered_append,
          eachDelivered_ready, List.append_nil]
        rw [hdel, hLeq]
      · intro _
        rw [hFeq]
        exact hf
      · intro hc
        rw [hrf] at hc
        cases hc
  · have hstf : st.finished = false := by
      cases hq : st.finished
      · rfl
      · exact absurd hq hst
    have hrf : ((traceHooks h).ready st sec es.subsubstate
        (Value.vlist nm Lnew)).1.finished = false := by
      simp only [traceHooks_ready_fst]
      rw [hnfr st es.subsubstate.1 (Value.vlist nm Lnew)]
      exact hstf
    by_cases hinif : es.initialized
    · obtain ⟨hcl, hl1⟩ := (hcur hstf).1 hinif
      have hLne : L ≠ [] := by
        intro hc
        rw [hc] at hl1
        simp at hl1
      obtain ⟨t, rfl⟩ := hstep.1
      have hLnewne : L ++ t ≠ [] := by
        intro hc
        exact hLne (List.append_eq_nil.1 hc).1
      rw [evalPrimary_unfin_list (traceHooks h) st sec es nm (L ++ t) fnew
        hLnewne hrf]
      simp only [hinif, if_true, hcl]
      obtain ⟨j, hj, hjne, htr, hjfin⟩ := eachLoop_delivered h sec
        (Value.vlist nm (L ++ t)) ((L ++ t).drop L.length) L.length
        ((traceHooks h).ready st sec es.subsubstate
          (Value.vlist nm (L ++ t))).1
        ⟨true, es.last_subvalue,
          ((traceHooks h).ready st sec es.subsubstate
            (Value.vlist nm (L ++ t))).2⟩
      have hr1 : (eachLoop (traceHooks h) sec (Value.vlist nm (L ++ t))
          ((L ++ t).drop L.length) L.length
          ((traceHooks h).ready st sec es.subsubstate
            (Value.vlist nm (L ++ t))).1
          ⟨true, es.last_subvalue,
            ((traceHooks h).ready st sec es.subsubstate
              (Value.vlist nm (L ++ t))).2⟩).1.finished = false := by
        rw [hflag]
        exact hrf
      have hjj := hjfin hr1
      have hdropt : (L ++ t).drop L.length = t := List.drop_left L t
      refine ⟨?_, ?_, ?_⟩
      · simp only [traceHooks_ready_snd] at htr
        simp only [traceHooks_ready_snd, htr, eachDelivered_append,
          eachDelivered_ready, eachDelivered_map_each, List.append_nil,
          hdel]
        rw [hjj, hdropt]
        simp [List.take_length]
      · intro hfin2
        cases hq : fnew
        · rw [hq, Bool.false_and] at hfin2
          simp only [Bool.false_eq_true, if_false] at hfin2
          rw [hr1] at hfin2
          cases hfin2
        · rfl
      · intro hfin2
        have hfnf : fnew = false := by
          cases hq : fnew
          · rfl
          · rw [hq, Bool.true_and, hr1, Bool.not_false] at hfin2
            simp only [if_true] at hfin2
            rw [finish_finished] at hfin2
            cases hfin2
        rw [hfnf, Bool.false_and] at hfin2
        simp only [Bool.false_eq_true, if_false] at hfin2
        obtain ⟨hc1, hc2⟩ := eachLoop_cursor_final (traceHooks h) sec
          (Value.vlist nm (L ++ t)) ((L ++ t).drop L.length) L.length
          ((traceHooks h).ready st sec es.subsubstate
            (Value.vlist nm (L ++ t))).1
          ⟨true, es.last_subvalue,
            ((traceHooks h).ready st sec es.subsubstate
              (Value.vlist nm (L ++ t))).2⟩ hr1
        constructor
        · intro _
          constructor
          · by_cases hdn : (L ++ t).drop L.length = []
            · rw [hc1 hdn]
              simp only []
              have ht0 : t = [] := by
                rw [hdropt] at hdn
                exact hdn
              rw [ht0]
              simpa using hcl
            · rw [hc2 hdn, List.length_drop, List.length_append]
              omega
          · rw [List.length_append]
            omega
        · intro hc
          rw [eachLoop_initialized] at hc
          cases hc
    · have hinib : es.initialized = false := by
        cases hq : es.initialized
        · rfl
        · exact absurd hq hinif
      have hLnil : L = [] := (hcur hstf).2 hinib
      by_cases he : Lnew = []
      · subst he
        rw [evalPrimary_empty_list]
        rw [hrf, Bool.not_false, Bool.and_true]
        refine ⟨?_, ?_, ?_⟩
        · cases hq : fnew <;> simp only [hq, Bool.false_eq_true, if_false,
            if_true] <;> simpa [hLnil] using hdel
        · intro hfin2
          cases hq : fnew
          · rw [hq] at hfin2
            simp only [Bool.false_eq_true, if_false] at hfin2
            rw [hrf] at hfin2
            cases hfin2
          · rfl
        · intro _
          refine ⟨?_, fun _ => rfl⟩
          intro hc
          rw [hinib] at hc
          cases hc
      · rw [evalPrimary_unfin_list (traceHooks h) st sec es nm Lnew fnew he
          hrf]
        simp only [hinib, Bool.false_eq_true, if_false, List.drop_zero]
        obtain ⟨j, hj, hjne, htr, hjfin⟩ := eachLoop_delivered h sec
          (Value.vlist nm Lnew) Lnew 0
          ((traceHooks h).ready st sec es.subsubstate
            (Value.vlist nm Lnew)).1
          ⟨true, es.last_subvalue,
            ((traceHooks h).ready st sec es.subsubstate
              (Value.vlist nm Lnew)).2⟩
        have hr1 : (eachLoop (traceHooks h) sec (Value.vlist nm Lnew) Lnew 0
            ((traceHooks h).ready st sec es.subsubstate
              (Value.vlist nm Lnew)).1
            ⟨true, es.last_subvalue,
              ((traceHooks h).ready st sec es.subsubstate
                (Value.vlist nm Lnew)).2⟩).1.finished = false := by
          rw [hflag]
          exact hrf
        have hjj := hjfin hr1
        refine ⟨?_, ?_, ?_⟩
        · simp only [traceHooks_ready_snd] at htr
          simp only [traceHooks_ready_snd, htr, eachDelivered_append,
            eachDelivered_ready, eachDelivered_map_each, List.append_nil,
            hdel, hLnil]
          rw [hjj]
          simp [List.take_length]
        · intro hfin2
          cases hq : fnew
          · rw [hq, Bool.false_and] at hfin2
            simp only [Bool.false_eq_true, if_false] at hfin2
            rw [hr1] at hfin2
            cases hfin2
          · rfl
        · intro hfin2
          have hfnf : fnew = false := by
            cases hq : fnew
            · rfl
            · rw [hq, Bool.true_and, hr1, Bool.not_false] at hfin2
              simp only [if_true] at hfin2
              rw [finish_finished] at hfin2
              cases hfin2
          rw [hfnf, Bool.false_and] at hfin2
          simp only [Bool.false_eq_true, if_false] at hfin2
          obtain ⟨hc1, hc2⟩ := eachLoop_cursor_final (traceHooks h) sec
            (Value.vlist nm Lnew) Lnew 0
            ((traceHooks h).ready st sec es.subsubstate
              (Value.vlist nm Lnew)).1
            ⟨true, es.last_subvalue,
              ((traceHooks h).ready st sec es.subsubstate
                (Value.vlist nm Lnew)).2⟩ hr1
          constructor
          · intro _
            refine ⟨?_, ?_⟩
            · rw [hc2 he]
              exact Nat.zero_add _
            · cases hq : Lnew
              · exact absurd hq he
              · simp
          · intro hc
            rw [eachLoop_initialized] at hc
            cases hc

/-- The exact-delivery invariant is preserved along any prefix-monotone,
freeze-respecting history of primary snapshots. -/
theorem runEach_delivered_exact {σ : Type} (h : EachHooks σ)
    (sec : List Value)
    (hnfr : ∀ (st2 : NodeEvalState) (s2 : σ) (pv : Value),
      (h.ready st2 sec s2 pv).1.finished = st2.finished)
    (hnfe : ∀ (st2 : NodeEvalState) (s2 : σ) (pv sv : Value),
      (h.eval_each st2 sec s2 pv sv).1.finished = st2.finished)
    (nm : String) (snaps : List (List Value × Bool))
    (q : List Value × Bool) (st : NodeEvalState)
    (es : EachState (σ × List EachEvent))
    (hch : List.Chain' prefFreeze (q :: snaps))
    (hinv : DeliveredExact st es q.1 q.2) :
    DeliveredExact
      (runEach (traceHooks h) sec (snaps.map (snapState nm)) st es).1
      (runEach (traceHooks h) sec (snaps.map (snapState nm)) st es).2
      (lastSnap q snaps).1 (lastSnap q snaps).2 := by
  induction snaps generalizing q st es with
  | nil => exact hinv
  | cons r snaps ih =>
    have hstep := (List.chain'_cons.1 hch).1
    have hch2 := (List.chain'_cons.1 hch).2
    simp only [List.map_cons, runEach]
    exact ih r _ _ hch2
      (evalPrimary_delivered_exact h sec hnfr hnfe st es q.1 r.1 nm q.2 r.2
        hstep hinv)

/-- Claim C3: (1) the iteration cursor last_subvalue only advances and is
never rewound by an eval_primary invocation, and the initialized flag stays
set; (2) for any hooks whose ready keeps a finished node finished, across
arbitrarily many eval_primary invocations on a growing (prefix-monotone,
frozen-once-finished) list primary, the subvalues passed to eval_each are a
positional prefix of the final primary list — in list order, each position
delivered at most once; (3) when the hooks never change the finished flag
(the node does not finish early), the subvalues delivered are exactly the
final primary list, each element exactly once. -/
theorem each_cursor_monotone_delivery :
    (∀ (σ : Type) (h : EachHooks σ) (st : NodeEvalState) (sec : List Value)
        (es : EachState σ) (primary : NodeEvalState),
      es.initialized = true →
        (Each.evalPrimary h st sec es primary).2.initialized = true ∧
        es.last_subvalue ≤
          (Each.evalPrimary h st sec es primary).2.last_subvalue) ∧
    (∀ (σ : Type) (h : EachHooks σ) (sec : List Value) (s0 : σ)
        (nm : String) (snaps : List (List Value × Bool)),
      (∀ (st2 : NodeEvalState) (s2 : σ) (pv : Value),
        st2.finished = true → (h.ready st2 sec s2 pv).1.finished = true) →
      List.Chain' prefFreeze ((([] : List Value), false) :: snaps) →
      ∃ k, eachDelivered
          (runEach (traceHooks h) sec (snaps.map (snapState nm))
            NodeEvalState.init (EachState.mk0 (s0, []))).2.subsubstate.2 =
        (lastSnap (([] : List Value), false) snaps).1.take k) ∧
    (∀ (σ : Type) (h : EachHooks σ) (sec : List Value) (s0 : σ)
        (nm : String) (snaps : List (List Value × Bool)),
      (∀ (st2 : NodeEvalState) (s2 : σ) (pv : Value),
        (h.ready st2 sec s2 pv).1.finished = st2.finished) →
      (∀ (st2 : NodeEvalState) (s2 : σ) (pv sv : Value),
        (h.eval_each st2 sec s2 pv sv).1.finished = st2.finished) →
      List.Chain' prefFreeze ((([] : List Value), false) :: snaps) →
      eachDelivered
          (runEach (traceHooks h) sec (snaps.map (snapState nm))
            NodeEvalState.init (EachState.mk0 (s0, []))).2.subsubstate.2 =
        (lastSnap (([] : List Value), false) snaps).1) := by
  refine ⟨?_, ?_, ?_⟩
  · intro σ h st sec es primary hinit
    exact evalPrimary_cursor_mono h st sec es primary hinit
  · intro σ h sec s0 nm snaps hfp hch
    have hinv0 : DeliveredPrefix NodeEvalState.init
        (EachState.mk0 ((s0, []) : σ × List EachEvent)) [] := by
      refine ⟨0, rfl, le_refl 0, fun _ => rfl, ?_, ?_⟩
      · intro hc
        cases hc
      · intro hc
        cases hc
    obtain ⟨k, hdel, -⟩ := runEach_delivered_pre h sec hfp nm snaps
      ([], false) NodeEvalState.init (EachState.mk0 (s0, [])) hch hinv0
    exact ⟨k, hdel⟩
  · intro σ h sec s0 nm snaps hnfr hnfe hch
    have hinv0 : DeliveredExact NodeEvalState.init
        (EachState.mk0 ((s0, []) : σ × List EachEvent)) [] false := by
      refine ⟨rfl, ?_, ?_⟩
      · intro hc
        cases hc
      · intro _
        refine ⟨?_, fun _ => rfl⟩
        intro hc
        cases hc
    exact (runEach_delivered_exact h sec hnfr hnfe nm snaps ([], false)
      NodeEvalState.init (EachState.mk0 (s0, [])) hch hinv0).1

/-- Witness for claim C3: two snapshots of a growing primary list of which
the last is finished; the delivered subvalues are exactly the final list. -/
theorem each_cursor_monotone_delivery_w :
    eachDelivered
        (runEach (traceHooks idHooks) []
          ([([Value.scalar 1], false),
            ([Value.scalar 1, Value.scalar 2], true)].map (snapState "p"))
          NodeEvalState.init (EachState.mk0 ((), []))).2.subsubstate.2 =
      [Value.scalar 1, Value.scalar 2] :=
  each_cursor_monotone_delivery.2.2 Unit idHooks [] () "p"
    [([Value.scalar 1], false), ([Value.scalar 1, Value.scalar 2], true)]
    (fun _ _ _ => rfl) (fun _ _ _ _ => rfl)
    (by
      refine List.chain'_cons.2 ⟨⟨⟨[Value.scalar 1], rfl⟩, ?_⟩, ?_⟩
      · intro hc
        cases hc
      · refine List.chain'_cons.2 ⟨⟨⟨[Value.scalar 2], rfl⟩, ?_⟩, ?_⟩
        · intro hc
          cases hc
        · exact List.chain'_singleton _)

end IronBee.Predicate.Functional
